import Mathlib

/-!
# gateway-basic: the middleware dispatch pipeline

A verification development for the two demo programs of the repository:

* `demo/base/context/main.go`: the cursor strategy (`Context.Next`, `Engine`),
  embedded in namespace `Cursor`;
* `demo/base/functional/main.go`: the closure strategy (`Use` and the
  middleware factories), embedded in namespace `Closure`;
* namespace `Shared` embeds the engine of the cursor strategy a second time,
  with the slice `e.middlewares` kept in memory, for what depends on
  `append(e.middlewares, routeHandler)` writing into a backing array. Served
  one request at a time it behaves as the embedding in `Cursor`
  (`Shared.ServeHTTP_refines`).

Everything a handler can make observable (lines on standard output, calls on
the `http.ResponseWriter`) is recorded, in program order, in one list of
`Event`s.

Conventions of the embedding:

* a cursor-strategy handler `func(ctx *Context)` is given by the steps its body
  performs for the request at hand: direct effects, calls of `c.Next()`,
  `c.String` and `c.JSON`;
* `Context.Next` calls handlers that call `Context.Next` again; the embedding
  bounds the depth of that nesting by a fuel argument, and the theorems give the
  fuel from which a run returns;
* `c.index` is a Go `int`: `c.index++` wraps around at 64 bits, and
  `c.handlers[c.index]` panics on an index outside the slice;
* the field `invoked` of `Context` is ghost state: it records which positions
  of `c.handlers` have been called, so that "is invoked" can be stated.
-/

set_option autoImplicit false

/-- An observable effect of serving a request. -/
inductive Event where
  /-- Text sent to standard output by `fmt.Printf` / `fmt.Println`. -/
  | print (s : String)
  /-- The call `w.Header().Set(k, v)`. -/
  | setHeader (k v : String)
  /-- The call `w.WriteHeader(code)`. -/
  | writeHeader (code : Int)
  /-- The call `w.Write([]byte(body))`. -/
  | write (body : String)
  deriving DecidableEq, Repr

/-- The part of `*http.Request` the programs read: `r.Method`, `r.URL.Path`
and the header fields. -/
structure Request where
  Method : String
  /-- The field `r.URL.Path`. -/
  Path : String
  /-- The field `r.Header`: each field name that is present, with its first
  value. -/
  Header : List (String × String)
  deriving DecidableEq, Repr

/-- Largest value of a Go `int` on a 64-bit platform. -/
def maxInt : Int := 9223372036854775807

/-- Two's complement wrap-around of a Go `int` (64 bits). -/
def wrapInt (i : Int) : Int :=
  (i + 9223372036854775808) % 18446744073709551616 - 9223372036854775808

/-- Bounds-checked indexing `s[i]` of a Go slice: `none` stands for the
run-time panic "index out of range". -/
def sliceIndex {α : Type} (s : List α) (i : Int) : Option α :=
  if 0 ≤ i then s.get? i.toNat else none

/-- Lookup `m[k]` in a Go `map[string]V`, kept as an association list. -/
def mapGet {V : Type} : List (String × V) → String → Option V
  | [], _ => none
  | (k1, v) :: rest, k => if k1 = k then some v else mapGet rest k

/-- Assignment `m[k] = v` in a Go `map[string]V`: the entry for `k`, if any, is
replaced, every other entry is kept. -/
def mapSet {V : Type} (m : List (String × V)) (k : String) (v : V) : List (String × V) :=
  (k, v) :: m.filter (fun e => decide (e.1 ≠ k))

/-- The library method `Header.Get(key)`: the first value of the field `key`,
the empty string when the field is absent. -/
def headerGet (header : List (String × String)) (key : String) : String :=
  match mapGet header key with
  | some v => v
  | none => ""

/-- Number of entries a map holds for the key `k`. -/
def mapCount {V : Type} (m : List (String × V)) (k : String) : Nat :=
  (m.filter (fun e => decide (e.1 = k))).length

namespace Cursor

/-- One step of a handler body, as far as the framework can see it. -/
inductive Action where
  /-- An effect performed directly (a print, a direct call on `c.Writer`). -/
  | effect (e : Event)
  /-- The call `c.Next()`. -/
  | next
  /-- The call `c.String(code, msg)`. -/
  | string (code : Int) (msg : String)
  /-- The call `c.JSON(code, data)`. -/
  | json (code : Int) (data : String)
  deriving DecidableEq, Repr

/-- A handler `func(ctx *Context)`: the sequence of steps its body performs,
which may depend on the request it reads through `ctx.Request`. -/
abbrev HandlerFunc := Request → List Action

/-- Why a run of the embedding did not return a `Context`. -/
inductive Fault where
  /-- The recursion depth allowed to the embedding was used up. -/
  | outOfFuel
  /-- The Go run-time panic of `c.handlers[c.index]`. -/
  | indexOutOfRange
  deriving DecidableEq, Repr

/-- The per-request `Context`. `effects` stands for what has been done so far
through `Writer` and on standard output; `invoked` is a ghost field listing, in
call order, the positions of `handlers` whose handler has been called. -/
structure Context where
  effects : List Event
  Request : Request
  Params : List (String × String)
  index : Int
  handlers : List HandlerFunc
  invoked : List Int

/-- The method `Context.JSON`. -/
def Context.JSON (c : Context) (code : Int) (data : String) : Context :=
  { c with effects := c.effects ++
      [Event.setHeader "Content-Type" "application/json", Event.writeHeader code,
       Event.write data] }

/-- The method `Context.String`. -/
def Context.String (c : Context) (code : Int) (msg : String) : Context :=
  { c with effects := c.effects ++ [Event.writeHeader code, Event.write msg] }

/-- Execution of a handler body on the context `c`, where `next` is what a
call of `c.Next()` does. -/
def runBody (next : Context → Except Fault Context) :
    List Action → Context → Except Fault Context
  | [], c => .ok c
  | .effect e :: rest, c => runBody next rest { c with effects := c.effects ++ [e] }
  | .next :: rest, c =>
    match next c with
    | .ok c1 => runBody next rest c1
    | .error f => .error f
  | .string code msg :: rest, c => runBody next rest (c.String code msg)
  | .json code data :: rest, c => runBody next rest (c.JSON code data)

/-- The method `Context.Next`: `c.index++`, then the handler at the new
position is called when that position is inside `c.handlers`. The first
argument bounds the depth of nested calls. -/
def Context.Next : Nat → Context → Except Fault Context
  | 0, _ => .error .outOfFuel
  | fuel + 1, c =>
    let c1 : Context := { c with index := wrapInt (c.index + 1) }
    if c1.index < (c1.handlers.length : Int) then
      match sliceIndex c1.handlers c1.index with
      | some h =>
        runBody (Context.Next fuel) (h c1.Request)
          { c1 with invoked := c1.invoked ++ [c1.index] }
      | none => .error .indexOutOfRange
    else .ok c1

/-- The `Engine`: the middleware list and the route table. -/
structure Engine where
  middlewares : List HandlerFunc
  routes : List (String × HandlerFunc)

/-- The constructor `NewEngine`. -/
def NewEngine : Engine :=
  { middlewares := [], routes := [] }

/-- The method `Engine.Use`. -/
def Engine.Use (e : Engine) (mw : HandlerFunc) : Engine :=
  { e with middlewares := e.middlewares ++ [mw] }

/-- The method `Engine.GET`. -/
def Engine.GET (e : Engine) (path : String) (handler : HandlerFunc) : Engine :=
  let key := "GET-" ++ path
  { e with routes := mapSet e.routes key handler }

/-- The context `Engine.ServeHTTP` builds before it looks the route up. -/
def freshContext (r : Request) : Context :=
  { effects := [], Request := r, Params := [], index := -1, handlers := [], invoked := [] }

/-- The method `Engine.ServeHTTP`, for a request `r` and a response on which
nothing has been written yet. -/
def Engine.ServeHTTP (fuel : Nat) (e : Engine) (r : Request) : Except Fault Context :=
  let c := freshContext r
  let key := r.Method ++ "-" ++ r.Path
  match mapGet e.routes key with
  | none =>
    .ok { c with effects := c.effects ++ [Event.writeHeader 404, Event.write "404 Not Found"] }
  | some routeHandler =>
    Context.Next fuel { c with handlers := e.middlewares ++ [routeHandler] }

/-- The engine `main` builds: the logging middleware, the timer middleware and
the route `GET /hello`. -/
def mainEngine : Engine :=
  ((NewEngine.Use
      (fun r => [.effect (.print ("[LOG] " ++ r.Method ++ " " ++ r.Path ++ "\n")), .next])).Use
      (fun _ => [.effect (.print "[TIMER] before\n"), .next,
                 .effect (.print "[TIMER] after\n")])).GET
    "/hello" (fun _ => [.string 200 "Hello from my mini Gin!"])

/-- The effects a handler body performs by itself, the calls of `c.Next()`
left out. -/
def ownEffects : List Action → List Event
  | [] => []
  | .effect e :: rest => e :: ownEffects rest
  | .next :: rest => ownEffects rest
  | .string code msg :: rest => Event.writeHeader code :: Event.write msg :: ownEffects rest
  | .json code data :: rest =>
    Event.setHeader "Content-Type" "application/json" :: Event.writeHeader code ::
      Event.write data :: ownEffects rest

/-- Number of calls of `c.Next()` in a handler body. -/
def nextCount : List Action → Nat
  | [] => 0
  | .next :: rest => nextCount rest + 1
  | _ :: rest => nextCount rest

/-- The positions `start, start + 1, ...`, `n` of them. -/
def positions (start : Int) : Nat → List Int
  | 0 => []
  | n + 1 => start :: positions (start + 1) n

/-- What a middleware does around the rest of the chain: it performs its
pre-logic and then either continues once and performs its post-logic, or
returns without continuing. -/
inductive Behaviour where
  | pass (pre post : List Event)
  | stop (pre : List Event)
  deriving DecidableEq, Repr

/-- The cursor-strategy handler body with the given behaviour. -/
def Behaviour.body : Behaviour → List Action
  | .pass pre post => pre.map Action.effect ++ [Action.next] ++ post.map Action.effect
  | .stop pre => pre.map Action.effect

/-- The trace of a chain of behaviours around a final handler emitting `hev`. -/
def expected : List Behaviour → List Event → List Event
  | [], hev => hev
  | .pass pre post :: bs, hev => pre ++ expected bs hev ++ post
  | .stop pre :: _, _ => pre

/-- Number of handlers a chain of behaviours followed by a final handler
reaches. -/
def reach : List Behaviour → Nat
  | [] => 1
  | .pass _ _ :: bs => reach bs + 1
  | .stop _ :: _ => 1

/-- The steps of a handler body before its first call of `c.Next()`. -/
def beforeNext : List Action → List Action
  | [] => []
  | .next :: _ => []
  | a :: rest => a :: beforeNext rest

/-- The steps of a handler body after its first call of `c.Next()`. -/
def afterNext : List Action → List Action
  | [] => []
  | .next :: rest => rest
  | _ :: rest => afterNext rest

/-- The behaviour of a handler body that calls `c.Next()` at most once. -/
def behaviourOf (body : List Action) : Behaviour :=
  if nextCount body = 0 then .stop (ownEffects body)
  else .pass (ownEffects (beforeNext body)) (ownEffects (afterNext body))

/-- Number of calls of `c.Next()` in the bodies, for the request `r`, of the
handlers behind the cursor position `i`. -/
def nextsBehind (hs : List HandlerFunc) (r : Request) (i : Int) : Nat :=
  ((hs.drop (i + 1).toNat).map (fun h => nextCount (h r))).sum

/-- Number of calls of `c.Next()` in the bodies, for the request `r`, of the
handlers at the positions `ps`. -/
def callsIn (hs : List HandlerFunc) (r : Request) (ps : List Int) : Nat :=
  (ps.map (fun p =>
    match sliceIndex hs p with
    | some h => nextCount (h r)
    | none => 0)).sum

/-- The context `c1` is reached from `c` by steps that call `c.Next()` `n`
times themselves: handlers and request are kept, the handlers invoked on the
way are new positions in strictly increasing order, all behind the cursor of
`c` and not behind that of `c1`, and the cursor has advanced by one for each
call of `c.Next()` made: the `n` calls of the steps and the calls in the bodies
of the handlers invoked. -/
def Advance (n : Nat) (c c1 : Context) : Prop :=
  c1.handlers = c.handlers ∧ c1.Request = c.Request ∧
    c1.index + (nextsBehind c.handlers c.Request c1.index : Int) ≤
      c.index + (nextsBehind c.handlers c.Request c.index : Int) + n ∧
    ∃ new : List Int, c1.invoked = c.invoked ++ new ∧ new.Pairwise (· < ·) ∧
      (∀ p ∈ new, c.index < p ∧ p ≤ c1.index ∧ p < (c.handlers.length : Int)) ∧
      c1.index = c.index + n + (callsIn c.handlers c.Request new : Int)

/-- The cursor-strategy middleware that behaves, for each request, as `b`
says. -/
def middleware (b : Request → Behaviour) : HandlerFunc :=
  fun r => (b r).body

/-- How far past its first handler the cursor of such a chain ends, when the
final handler calls `c.Next()` `k` times. -/
def finalOffset : List Behaviour → Nat → Nat
  | [], k => k
  | .pass _ _ :: bs, k => finalOffset bs k + 1
  | .stop _ :: _, _ => 0

end Cursor

namespace Closure

/-- A handler `func(http.ResponseWriter, *http.Request)`: from the effects
performed so far and the request to the effects after the call. -/
abbrev HandlerFunc := List Event → Request → List Event

/-- The loop of `Use`: `i` runs from `len(m) - 1` down to `0`; the first
argument is `i + 1`. -/
def Use.loop (m : List (HandlerFunc → HandlerFunc)) : Nat → HandlerFunc → HandlerFunc
  | 0, h => h
  | i + 1, h =>
    match m.get? i with
    | some f => Use.loop m i (f h)
    | none => h

/-- The function `Use`. -/
def Use (h : HandlerFunc) (m : List (HandlerFunc → HandlerFunc)) : HandlerFunc :=
  Use.loop m m.length h

/-- The middleware factory whose handler behaves, for each request, as `b`
says: it performs the pre-logic and then either calls `next` once and performs
the post-logic, or returns without calling `next`. -/
def factory (b : Request → Cursor.Behaviour) : HandlerFunc → HandlerFunc :=
  fun next => fun w r =>
    match b r with
    | .pass pre post => next (w ++ pre) r ++ post
    | .stop pre => w ++ pre

/-- The closure-strategy handler that performs the effects of the
cursor-strategy handler `h`. -/
def ofCursor (h : Cursor.HandlerFunc) : HandlerFunc :=
  fun w r => w ++ Cursor.ownEffects (h r)

/-- Right-to-left composition, as the specification words it:
`m1(m2(...(mn(h))...))`. -/
def composeRight (h : HandlerFunc) (m : List (HandlerFunc → HandlerFunc)) : HandlerFunc :=
  m.foldr (fun f acc => f acc) h

/-- The library function `http.Error(w, msg, code)`: it sets two header
fields, writes the status and then the message followed by a newline. -/
def httpError (w : List Event) (msg : String) (code : Int) : List Event :=
  w ++ [Event.setHeader "Content-Type" "text/plain; charset=utf-8",
    Event.setHeader "X-Content-Type-Options" "nosniff", Event.writeHeader code,
    Event.write (msg ++ "\n")]

/-- The factory `Logging`. -/
def Logging (next : HandlerFunc) : HandlerFunc :=
  fun w r => next (w ++ [Event.print ("[LOG] " ++ r.Method ++ " " ++ r.Path ++ "\n")]) r

/-- The factory `Auth`; `http.StatusUnauthorized` is 401. -/
def Auth (next : HandlerFunc) : HandlerFunc :=
  fun w r =>
    let token := headerGet r.Header "Authorization"
    if token = "" then httpError w "Unauthorized: missing token" 401
    else next w r

/-- The factory `RateLimit`. -/
def RateLimit (next : HandlerFunc) : HandlerFunc :=
  fun w r => next (w ++ [Event.print "[RateLimit] OK\n"]) r

/-- The handler `Hello`: `fmt.Fprintln(w, ...)` is one `w.Write` of the line. -/
def Hello : HandlerFunc :=
  fun w _ => w ++ [Event.write "Hello with middleware!\n"]

end Closure

namespace Shared

/-!
The cursor strategy once more, with the memory `e.middlewares` lives in: a Go
slice is a view (array, length, capacity) of a backing array, and `append`
writes into that array when the capacity allows it.
-/

/-- A Go slice value: the backing array it points to, its length and its
capacity. -/
structure Slice where
  array : Nat
  len : Nat
  cap : Nat
  deriving DecidableEq, Repr

/-- The backing arrays allocated so far, each with the slots written so far. -/
abbrev Heap := List (List Cursor.HandlerFunc)

/-- The elements of a slice. -/
def readSlice (heap : Heap) (s : Slice) : List Cursor.HandlerFunc :=
  (heap.getD s.array []).take s.len

/-- The assignment `array[i] = x`, on the slot behind the written ones or on
a written one. -/
def writeSlot (arr : List Cursor.HandlerFunc) (i : Nat) (x : Cursor.HandlerFunc) :
    List Cursor.HandlerFunc :=
  if i < arr.length then arr.set i x else arr ++ [x]

/-- The capacity the Go runtime gives the new array when one element is
appended to a full slice of capacity `c`, for `c` below 256: 1 for an empty
array, twice `c` otherwise. -/
def growCap (c : Nat) : Nat :=
  if c = 0 then 1 else 2 * c

/-- The built-in `append(s, x)`: with spare capacity the element is written
into the backing array of `s`, otherwise into a new array, of the capacity
`grow` gives, that starts with the elements of `s`. -/
def goAppend (grow : Nat → Nat) (heap : Heap) (s : Slice) (x : Cursor.HandlerFunc) :
    Heap × Slice :=
  if s.len < s.cap then
    (heap.set s.array (writeSlot (heap.getD s.array []) s.len x), { s with len := s.len + 1 })
  else
    (heap ++ [readSlice heap s ++ [x]],
      { array := heap.length, len := s.len + 1, cap := grow s.cap })

/-- The `Engine`, its middleware slice seen in memory. -/
structure Engine where
  heap : Heap
  middlewares : Slice
  routes : List (String × Cursor.HandlerFunc)

/-- The constructor `NewEngine`: `[]HandlerFunc{}` has length and capacity 0. -/
def NewEngine : Engine :=
  { heap := [[]], middlewares := { array := 0, len := 0, cap := 0 }, routes := [] }

/-- The method `Engine.Use`. -/
def Engine.Use (grow : Nat → Nat) (e : Engine) (mw : Cursor.HandlerFunc) : Engine :=
  { e with heap := (goAppend grow e.heap e.middlewares mw).1,
           middlewares := (goAppend grow e.heap e.middlewares mw).2 }

/-- The method `Engine.GET`. -/
def Engine.GET (e : Engine) (path : String) (handler : Cursor.HandlerFunc) : Engine :=
  let key := "GET-" ++ path
  { e with routes := mapSet e.routes key handler }

/-- The first part of `Engine.ServeHTTP`, up to
`c.handlers = append(e.middlewares, routeHandler)`: the memory afterwards and
the slice `c.handlers` holds, `none` when no route matches. -/
def Engine.prepare (grow : Nat → Nat) (e : Engine) (r : Request) : Engine × Option Slice :=
  let key := r.Method ++ "-" ++ r.Path
  match mapGet e.routes key with
  | none => (e, none)
  | some routeHandler =>
    ({ e with heap := (goAppend grow e.heap e.middlewares routeHandler).1 },
      some (goAppend grow e.heap e.middlewares routeHandler).2)

/-- The second part of `Engine.ServeHTTP`: the 404 response, or `c.Next()` on
the elements `c.handlers` has in memory at that moment. -/
def Engine.dispatch (fuel : Nat) (e : Engine) (r : Request) :
    Option Slice → Except Cursor.Fault Cursor.Context
  | none =>
    .ok { Cursor.freshContext r with
      effects := [Event.writeHeader 404, Event.write "404 Not Found"] }
  | some s =>
    Cursor.Context.Next fuel { Cursor.freshContext r with handlers := readSlice e.heap s }

/-- The method `Engine.ServeHTTP` run from start to end without another request
in between: the memory afterwards and the outcome. -/
def Engine.ServeHTTP (fuel : Nat) (grow : Nat → Nat) (e : Engine) (r : Request) :
    Engine × Except Cursor.Fault Cursor.Context :=
  ((e.prepare grow r).1, (e.prepare grow r).1.dispatch fuel r (e.prepare grow r).2)

/-- The engine after the requests `rs` have been served one after the other. -/
def serveAll (fuel : Nat) (grow : Nat → Nat) (e : Engine) (rs : List Request) : Engine :=
  rs.foldl (fun e1 r => (e1.ServeHTTP fuel grow r).1) e

/-- The engine of the cursor strategy a memory state stands for. -/
def Engine.abs (e : Engine) : Cursor.Engine :=
  { middlewares := readSlice e.heap e.middlewares, routes := e.routes }

/-- The middleware slice points to an allocated array and all its elements
have been written. -/
def Engine.WF (e : Engine) : Prop :=
  e.middlewares.array < e.heap.length ∧
    e.middlewares.len ≤ (e.heap.getD e.middlewares.array []).length

/-- An engine with three middleware and the routes GET /a and GET /b. -/
def raceEngine : Engine :=
  (((((NewEngine.Use growCap (fun _ => [.effect (.print "m1"), .next])).Use growCap
      (fun _ => [.effect (.print "m2"), .next])).Use growCap
      (fun _ => [.effect (.print "m3"), .next])).GET "/a"
      (fun _ => [.string 200 "a"])).GET "/b" (fun _ => [.string 200 "b"]))

end Shared

/-! ## Integers, slices and maps -/

theorem wrapInt_of_le (i : Int) (hlo : -9223372036854775808 ≤ i) (hhi : i ≤ maxInt) :
    wrapInt i = i := by
  unfold wrapInt
  unfold maxInt at hhi
  omega

theorem sliceIndex_append_length {α : Type} (front rest : List α) (x : α) :
    sliceIndex (front ++ x :: rest) (front.length : Int) = some x := by
  have hk : (front ++ x :: rest).get? front.length = some x := by
    induction front with
    | nil => rfl
    | cons a as ih => simpa using ih
  simpa [sliceIndex] using hk

namespace Cursor

/-! ## The continue primitive -/

theorem Next_in (fuel : Nat) (c : Context) (h : HandlerFunc)
    (hmax : c.index < maxInt)
    (hlt : c.index + 1 < (c.handlers.length : Int))
    (hget : sliceIndex c.handlers (c.index + 1) = some h) :
    Context.Next (fuel + 1) c =
      runBody (Context.Next fuel) (h c.Request)
        { c with index := c.index + 1, invoked := c.invoked ++ [c.index + 1] } := by
  have h0 : 0 ≤ c.index + 1 := by
    by_contra hneg
    simp [sliceIndex, hneg] at hget
  have hw : wrapInt (c.index + 1) = c.index + 1 :=
    wrapInt_of_le _ (by omega) (by omega)
  simp only [Context.Next, hw, hlt, if_true, hget]

theorem Next_past (fuel : Nat) (c : Context)
    (hmax : c.index < maxInt)
    (hge : (c.handlers.length : Int) ≤ c.index + 1) :
    Context.Next (fuel + 1) c = .ok { c with index := c.index + 1 } := by
  have hw : wrapInt (c.index + 1) = c.index + 1 :=
    wrapInt_of_le _ (by omega) (by omega)
  have hn : ¬ (c.index + 1 < (c.handlers.length : Int)) := by omega
  simp only [Context.Next, hw, hn, if_false]

/-! ## Handler bodies -/

theorem nextCount_beforeNext (body : List Action) : nextCount (beforeNext body) = 0 := by
  induction body with
  | nil => rfl
  | cons a rest ih => cases a <;> simp [beforeNext, nextCount, ih]

theorem split_next (body : List Action) (h : nextCount body ≠ 0) :
    body = beforeNext body ++ Action.next :: afterNext body ∧
      nextCount (afterNext body) + 1 = nextCount body := by
  induction body with
  | nil => simp [nextCount] at h
  | cons a rest ih =>
    cases a with
    | next => simp [beforeNext, afterNext, nextCount]
    | effect e =>
      have h1 := ih (by simpa [nextCount] using h)
      simp only [beforeNext, afterNext, nextCount, List.cons_append, List.cons.injEq, true_and]
      exact h1
    | string code msg =>
      have h1 := ih (by simpa [nextCount] using h)
      simp only [beforeNext, afterNext, nextCount, List.cons_append, List.cons.injEq, true_and]
      exact h1
    | json code data =>
      have h1 := ih (by simpa [nextCount] using h)
      simp only [beforeNext, afterNext, nextCount, List.cons_append, List.cons.injEq, true_and]
      exact h1

/-- Steps that do not call `c.Next()` only add their effects. -/
theorem runBody_free (nx : Context → Except Fault Context) (a : List Action) :
    ∀ (rest : List Action) (c : Context), nextCount a = 0 →
      runBody nx (a ++ rest) c =
        runBody nx rest { c with effects := c.effects ++ ownEffects a } := by
  induction a with
  | nil => intro rest c _; simp [ownEffects]
  | cons x xs ih =>
    intro rest c hfree
    cases x with
    | next => simp [nextCount] at hfree
    | effect e =>
      show runBody nx (Action.effect e :: (xs ++ rest)) c = _
      rw [runBody, ih _ _ (by simpa [nextCount] using hfree)]
      simp [ownEffects, List.append_assoc]
    | string code msg =>
      show runBody nx (Action.string code msg :: (xs ++ rest)) c = _
      rw [runBody, ih _ _ (by simpa [nextCount] using hfree)]
      simp [ownEffects, Context.String, List.append_assoc]
    | json code data =>
      show runBody nx (Action.json code data :: (xs ++ rest)) c = _
      rw [runBody, ih _ _ (by simpa [nextCount] using hfree)]
      simp [ownEffects, Context.JSON, List.append_assoc]

/-- A body that calls `c.Next()`: the steps before the first call, the call,
the steps after it. -/
theorem runBody_split (nx : Context → Except Fault Context) (body : List Action)
    (hne : nextCount body ≠ 0) (c : Context) :
    runBody nx body c =
      match nx { c with effects := c.effects ++ ownEffects (beforeNext body) } with
      | .ok c1 => runBody nx (afterNext body) c1
      | .error f => .error f := by
  conv_lhs => rw [(split_next body hne).1]
  rw [runBody_free _ _ _ _ (nextCount_beforeNext body), runBody]

theorem runBody_free_only (nx : Context → Except Fault Context) (a : List Action)
    (c : Context) (hfree : nextCount a = 0) :
    runBody nx a c = .ok { c with effects := c.effects ++ ownEffects a } := by
  have h := runBody_free nx a [] c hfree
  simpa [runBody] using h

/-- A handler body run with the cursor on or past the last position: each of
its calls of `c.Next()` only moves the cursor. -/
theorem runBody_past (fuel : Nat) (body : List Action) :
    ∀ (c : Context), (c.handlers.length : Int) ≤ c.index + 1 →
      c.index + (nextCount body : Int) ≤ maxInt →
      runBody (Context.Next (fuel + 1)) body c =
        .ok { c with index := c.index + (nextCount body : Int),
                     effects := c.effects ++ ownEffects body } := by
  induction body with
  | nil => intro c _ _; simp [runBody, nextCount, ownEffects]
  | cons a rest ih =>
    intro c hge hmax
    cases a with
    | effect e =>
      simp only [runBody, nextCount, ownEffects]
      rw [ih _ (by simpa using hge) (by simpa [nextCount] using hmax)]
      simp
    | next =>
      simp only [nextCount, Nat.cast_add, Nat.cast_one] at hmax
      simp only [runBody, nextCount, ownEffects]
      rw [Next_past fuel c (by omega) hge]
      simp only
      rw [ih _ (by simp only; omega) (by simp only; omega)]
      simp only [Nat.cast_add, Nat.cast_one]
      congr 2
      omega
    | string code msg =>
      simp only [runBody, nextCount, ownEffects, Context.String]
      rw [ih _ (by simpa using hge) (by simpa [nextCount] using hmax)]
      simp
    | json code data =>
      simp only [runBody, nextCount, ownEffects, Context.JSON]
      rw [ih _ (by simpa using hge) (by simpa [nextCount] using hmax)]
      simp

/-! ## Chains of middleware that continue at most once -/

/-- The run of the cursor through handlers `hs ++ [h]` that sit behind `front`,
when no handler of `hs` calls `c.Next()` more than once for the request. The
handlers of `tail`, behind `h`, play no part when `h` does not continue. -/
theorem cursor_run (r : Request) (hs : List HandlerFunc) :
    ∀ (front : List HandlerFunc) (h : HandlerFunc) (tail : List HandlerFunc) (c : Context)
      (fuel : Nat),
      (∀ m ∈ hs, nextCount (m r) ≤ 1) →
      (tail = [] ∨ nextCount (h r) = 0) →
      c.Request = r → c.handlers = front ++ hs ++ h :: tail →
      c.index = (front.length : Int) - 1 →
      hs.length + 2 ≤ fuel →
      (front.length : Int) + hs.length + tail.length + nextCount (h r) ≤ maxInt →
      Context.Next fuel c =
        .ok { c with
          index := (front.length : Int) +
            finalOffset (hs.map (fun m => behaviourOf (m r))) (nextCount (h r)),
          effects := c.effects ++
            expected (hs.map (fun m => behaviourOf (m r))) (ownEffects (h r)),
          invoked := c.invoked ++
            positions front.length (reach (hs.map (fun m => behaviourOf (m r)))) } := by
  induction hs with
  | nil =>
    intro front h tail c fuel _ htail hreq hh hidx hfuel hmax
    obtain ⟨g, rfl⟩ : ∃ g, fuel = g + 2 := ⟨fuel - 2, by simp at hfuel; omega⟩
    simp only [List.length_nil, Nat.cast_zero, add_zero] at hmax
    have hlen : (c.handlers.length : Int) = front.length + (tail.length + 1) := by
      simp [hh]
    have hget : sliceIndex c.handlers (c.index + 1) = some h := by
      rw [hh, hidx]
      simpa using sliceIndex_append_length front tail h
    rw [Next_in (g + 1) c h (by omega) (by omega) hget, hreq]
    rcases htail with htail | hfree
    · subst htail
      simp only [List.length_nil, Nat.cast_zero, add_zero] at hlen hmax
      rw [runBody_past g (h r) _ (by simp only; omega) (by simp only; omega)]
      simp [finalOffset, expected, reach, positions, hidx]
    · rw [runBody_free_only _ (h r) _ hfree]
      simp [finalOffset, expected, reach, positions, hidx, hfree]
  | cons m hs1 ih =>
    intro front h tail c fuel hone htail hreq hh hidx hfuel hmax
    obtain ⟨f, rfl⟩ : ∃ f, fuel = f + 1 := ⟨fuel - 1, by omega⟩
    simp only [List.length_cons, Nat.cast_add, Nat.cast_one] at hmax hfuel
    have hm1 : nextCount (m r) ≤ 1 := hone m (List.mem_cons_self _ _)
    have hone1 : ∀ x ∈ hs1, nextCount (x r) ≤ 1 := fun x hx => hone x (List.mem_cons_of_mem _ hx)
    have hlen : (c.handlers.length : Int) =
        front.length + (hs1.length + 1) + (tail.length + 1) := by
      simp [hh]
      omega
    have hget : sliceIndex c.handlers (c.index + 1) = some m := by
      rw [hh, hidx]
      simpa using sliceIndex_append_length front (hs1 ++ h :: tail) m
    rw [Next_in f c m (by omega) (by omega) hget, hreq]
    by_cases hz : nextCount (m r) = 0
    · rw [runBody_free_only _ (m r) _ hz]
      simp [behaviourOf, hz, finalOffset, expected, reach, positions, hidx]
    · obtain ⟨hsplit, hafter⟩ := split_next (m r) hz
      have hfreeAfter : nextCount (afterNext (m r)) = 0 := by omega
      have key := ih (front ++ [m]) h tail
        { effects := c.effects ++ ownEffects (beforeNext (m r)), Request := r,
          Params := c.Params, index := c.index + 1,
          handlers := c.handlers, invoked := c.invoked ++ [c.index + 1] } f hone1 htail rfl
        (by simp [hh]) (by simp [hidx]) (by omega)
        (by simp only [List.length_append, List.length_singleton, Nat.cast_add,
          Nat.cast_one]; omega)
      rw [hsplit, runBody_free _ _ _ _ (nextCount_beforeNext (m r)), runBody]
      simp only at key ⊢
      rw [key]
      simp only
      rw [runBody_free_only _ _ _ hfreeAfter]
      have hb : behaviourOf (m r) =
          .pass (ownEffects (beforeNext (m r))) (ownEffects (afterNext (m r))) := by
        simp [behaviourOf, hz]
      simp only [List.map_cons, hb, finalOffset, expected, reach, positions, hidx,
        List.append_assoc, List.length_append, List.length_singleton, Nat.cast_add,
        Nat.cast_one, sub_add_cancel, List.singleton_append, add_assoc]
      rw [add_comm (1 : Int)]

end Cursor

namespace Cursor

/-! ## Counting positions -/

theorem positions_eq_range (n : Nat) :
    ∀ start : Int,
      positions start n = (List.range n).map (fun (i : Nat) => start + (i : Int)) := by
  induction n with
  | zero => intro start; simp [positions]
  | succ k ih =>
    intro start
    rw [positions, ih, List.range_succ_eq_map]
    simp only [List.map_cons, List.map_map, Nat.cast_zero, add_zero, List.cons.injEq, true_and]
    apply List.map_congr_left
    intro i _
    simp only [Function.comp_apply, Nat.cast_succ]
    omega

theorem positions_zero (n : Nat) : positions 0 n = (List.range n).map Int.ofNat := by
  rw [positions_eq_range]
  apply List.map_congr_left
  intro i _
  simp

theorem reach_pass (ps : List (List Event × List Event)) :
    reach (ps.map (fun p => Behaviour.pass p.1 p.2)) = ps.length + 1 := by
  induction ps with
  | nil => rfl
  | cons p rest ih => simp [reach, ih]

theorem expected_pass (ps : List (Event × Event)) (hev : List Event) :
    expected (ps.map (fun p => Behaviour.pass [p.1] [p.2])) hev =
      ps.map Prod.fst ++ hev ++ (ps.map Prod.snd).reverse := by
  induction ps with
  | nil => simp [expected]
  | cons p rest ih => simp [expected, ih]

end Cursor

namespace Closure

/-! ## Composition by wrapping -/

theorem Use_loop_take (m : List (HandlerFunc → HandlerFunc)) (k : Nat) :
    ∀ h : HandlerFunc, k ≤ m.length →
      Use.loop m k h = (m.take k).foldr (fun f acc => f acc) h := by
  induction k with
  | zero => intro h _; simp [Use.loop]
  | succ i ih =>
    intro h hk
    have hi : i < m.length := by omega
    have hget : m.get? i = some (m.get ⟨i, hi⟩) := List.get?_eq_get hi
    rw [Use.loop]
    simp only [hget]
    have ht : m.take (i + 1) = m.take i ++ [m.get ⟨i, hi⟩] := by
      rw [← List.take_concat_get m i hi, List.concat_eq_append]
      rfl
    rw [ih _ (by omega), ht, List.foldr_append]
    rfl

theorem Use_eq_foldr (h : HandlerFunc) (m : List (HandlerFunc → HandlerFunc)) :
    Use h m = m.foldr (fun f acc => f acc) h := by
  rw [Use, Use_loop_take m m.length h (le_refl _), List.take_length]

theorem foldr_factory (r : Request) (hev : Request → List Event)
    (bs : List (Request → Cursor.Behaviour)) :
    ∀ w : List Event,
      (bs.map factory).foldr (fun f acc => f acc) (fun w r => w ++ hev r) w r =
        w ++ Cursor.expected (bs.map (fun b => b r)) (hev r) := by
  induction bs with
  | nil => intro w; simp [Cursor.expected]
  | cons b rest ih =>
    intro w
    simp only [List.map_cons, List.foldr_cons, factory]
    cases hb : b r with
    | pass pre post => simp [Cursor.expected, ih, List.append_assoc]
    | stop pre => simp [Cursor.expected]

end Closure

namespace Cursor

/-! ## Serving a request -/

theorem get_key (r : Request) (hmethod : r.Method = "GET") :
    r.Method ++ "-" ++ r.Path = "GET-" ++ r.Path := by
  rw [hmethod]
  rfl

theorem ServeHTTP_found (fuel : Nat) (e : Engine) (r : Request) (h : HandlerFunc)
    (hroute : mapGet e.routes (r.Method ++ "-" ++ r.Path) = some h) :
    e.ServeHTTP fuel r =
      Context.Next fuel { freshContext r with handlers := e.middlewares ++ [h] } := by
  simp only [Engine.ServeHTTP, hroute]

theorem count_range_last (n : Nat) :
    ((List.range (n + 1)).map Int.ofNat).count (n : Int) = 1 := by
  apply List.count_eq_one_of_mem
  · exact (List.nodup_range _).map Int.ofNat_injective
  · exact List.mem_map.mpr ⟨n, List.mem_range.mpr (Nat.lt_succ_self n), rfl⟩

/-- C1. Cursor strategy call order: when the bodies of the middleware of an
engine are, for the request, "emit pre_i, call Next once, emit post_i" and the
route table holds a handler `h` for the path of a GET request, `ServeHTTP`
returns and has produced exactly pre_1, ..., pre_n, the effects of `h`,
post_n, ..., post_1; the handlers at positions 0, ..., n were called in that
order, each once, so `h` (position n) was called exactly once. -/
theorem cursor_call_order (e : Engine) (r : Request) (ps : List (Event × Event))
    (h : HandlerFunc) (fuel : Nat)
    (hmw : e.middlewares.map (fun m => m r) =
      ps.map (fun p => [Action.effect p.1, Action.next, Action.effect p.2]))
    (hmethod : r.Method = "GET")
    (hroute : mapGet e.routes ("GET-" ++ r.Path) = some h)
    (hfuel : ps.length + 2 ≤ fuel)
    (hsize : (ps.length : Int) + nextCount (h r) ≤ maxInt) :
    ∃ c, e.ServeHTTP fuel r = .ok c ∧
      c.effects = ps.map Prod.fst ++ ownEffects (h r) ++ (ps.map Prod.snd).reverse ∧
      c.invoked = (List.range (ps.length + 1)).map Int.ofNat ∧
      c.invoked.count (ps.length : Int) = 1 := by
  rw [← get_key r hmethod] at hroute
  have hlen : e.middlewares.length = ps.length := by
    have := congrArg List.length hmw
    simpa using this
  have hbody : e.middlewares.map (fun m => behaviourOf (m r)) =
      ps.map (fun p => Behaviour.pass [p.1] [p.2]) := by
    have h1 : e.middlewares.map (fun m => behaviourOf (m r)) =
        (e.middlewares.map (fun m => m r)).map behaviourOf := by
      rw [List.map_map]
      rfl
    rw [h1, hmw, List.map_map]
    apply List.map_congr_left
    intro p _
    rfl
  have hone : ∀ m ∈ e.middlewares, nextCount (m r) ≤ 1 := by
    intro m hm
    have hmem : m r ∈ e.middlewares.map (fun m => m r) := List.mem_map_of_mem _ hm
    rw [hmw] at hmem
    obtain ⟨p, _, hp⟩ := List.mem_map.mp hmem
    rw [← hp]
    simp [nextCount]
  have hrun := cursor_run r e.middlewares [] h []
    { freshContext r with handlers := e.middlewares ++ [h] } fuel hone (Or.inl rfl) rfl
    (by simp) (by simp [freshContext]) (by omega) (by simpa [hlen] using hsize)
  rw [hbody] at hrun
  have hreach : reach (ps.map (fun p => Behaviour.pass [p.1] [p.2])) = ps.length + 1 := by
    have := reach_pass (ps.map (fun p => (([p.1] : List Event), ([p.2] : List Event))))
    simpa [List.map_map, Function.comp] using this
  rw [ServeHTTP_found fuel e r h hroute, hrun]
  refine ⟨_, rfl, ?_, ?_, ?_⟩
  · simp [freshContext, expected_pass]
  · simp [freshContext, hreach, positions_zero]
  · simp only [freshContext, hreach, List.length_nil, Nat.cast_zero, List.nil_append]
    rw [positions_zero]
    exact count_range_last ps.length

/-- Witness for C1: two wrapping middleware registered with `Use`, a route
registered with `GET`. -/
theorem cursor_call_order_witness :
    ∃ c, (((NewEngine.Use (fun _ => [.effect (.print "a1"), .next, .effect (.print "a2")])).Use
            (fun _ => [.effect (.print "b1"), .next, .effect (.print "b2")])).GET "/x"
            (fun _ => [.string 200 "ok"])).ServeHTTP 4 ⟨"GET", "/x", []⟩ = .ok c ∧
      c.effects = [.print "a1", .print "b1", .writeHeader 200, .write "ok", .print "b2",
        .print "a2"] ∧
      c.invoked = [0, 1, 2] ∧ c.invoked.count 2 = 1 :=
  cursor_call_order _ ⟨"GET", "/x", []⟩ [(.print "a1", .print "a2"), (.print "b1", .print "b2")]
    (fun _ => [.string 200 "ok"]) 4 rfl rfl rfl (by decide) (by decide)

end Cursor

namespace Closure

/-- C2. Closure strategy composition is a right-to-left fold: `Use h [m1, ..., mn]`
is `m1 (m2 (... (mn h)))`; the first-listed factory is the outermost wrapper
and the base handler is innermost. -/
theorem use_right_fold (h : HandlerFunc) (m : List (HandlerFunc → HandlerFunc)) :
    Use h m = composeRight h m ∧
      ∀ (f : HandlerFunc → HandlerFunc) (rest : List (HandlerFunc → HandlerFunc)),
        Use h (f :: rest) = f (Use h rest) := by
  refine ⟨Use_eq_foldr h m, ?_⟩
  intro f rest
  rw [Use_eq_foldr, Use_eq_foldr, List.foldr_cons]

end Closure

namespace Cursor

/-! ## The two strategies -/

theorem nextCount_effects (evs : List Event) : nextCount (evs.map Action.effect) = 0 := by
  induction evs with
  | nil => rfl
  | cons e es ih => simpa [nextCount] using ih

theorem ownEffects_effects (evs : List Event) : ownEffects (evs.map Action.effect) = evs := by
  induction evs with
  | nil => rfl
  | cons e es ih => simp [ownEffects, ih]

theorem beforeNext_effects (evs : List Event) (rest : List Action) :
    beforeNext (evs.map Action.effect ++ Action.next :: rest) = evs.map Action.effect := by
  induction evs with
  | nil => rfl
  | cons e es ih => simp [beforeNext, ih]

theorem afterNext_effects (evs : List Event) (rest : List Action) :
    afterNext (evs.map Action.effect ++ Action.next :: rest) = rest := by
  induction evs with
  | nil => rfl
  | cons e es ih => simp [afterNext, ih]

theorem nextCount_append (a b : List Action) :
    nextCount (a ++ b) = nextCount a + nextCount b := by
  induction a with
  | nil => simp [nextCount]
  | cons x xs ih =>
    cases x <;> simp [nextCount, ih]
    omega

theorem nextCount_body (b : Behaviour) : nextCount b.body ≤ 1 := by
  cases b with
  | pass pre post =>
    simp [Behaviour.body, nextCount_append, nextCount_effects, nextCount]
  | stop pre => simp [Behaviour.body, nextCount_effects]

theorem behaviourOf_body (b : Behaviour) : behaviourOf b.body = b := by
  cases b with
  | pass pre post =>
    have hn : nextCount (Behaviour.pass pre post).body ≠ 0 := by
      simp [Behaviour.body, nextCount_append, nextCount_effects, nextCount]
    rw [behaviourOf, if_neg hn]
    simp only [Behaviour.body, List.append_assoc, List.singleton_append]
    rw [beforeNext_effects, afterNext_effects, ownEffects_effects, ownEffects_effects]
  | stop pre =>
    rw [behaviourOf, if_pos (by simp [Behaviour.body, nextCount_effects])]
    simp [Behaviour.body, ownEffects_effects]

/-- C3. The two strategies produce the same trace: for middleware that perform
their pre-logic and then either continue exactly once and perform their
post-logic or short-circuit, and for every final handler `h`, one call of
`Next` on a fresh context (cursor -1) whose handlers are the middleware
followed by `h` returns, and the effects it has produced are those of the
handler `Use` builds from `h` and the corresponding factories. -/
theorem strategies_same_trace (r : Request) (bs : List (Request → Behaviour))
    (h : HandlerFunc) (fuel : Nat)
    (hfuel : bs.length + 2 ≤ fuel)
    (hsize : (bs.length : Int) + nextCount (h r) ≤ maxInt) :
    ∃ c, Context.Next fuel { freshContext r with handlers := bs.map middleware ++ [h] } = .ok c ∧
      c.effects = Closure.Use (Closure.ofCursor h) (bs.map Closure.factory) [] r := by
  have hone : ∀ m ∈ bs.map middleware, nextCount (m r) ≤ 1 := by
    intro m hm
    obtain ⟨b, _, hb⟩ := List.mem_map.mp hm
    rw [← hb]
    exact nextCount_body (b r)
  have hbeh : (bs.map middleware).map (fun m => behaviourOf (m r)) = bs.map (fun b => b r) := by
    rw [List.map_map]
    apply List.map_congr_left
    intro b _
    exact behaviourOf_body (b r)
  have hrun := cursor_run r (bs.map middleware) [] h []
    { freshContext r with handlers := bs.map middleware ++ [h] } fuel hone (Or.inl rfl) rfl
    (by simp) (by simp [freshContext]) (by simpa using hfuel) (by simpa using hsize)
  rw [hbeh] at hrun
  rw [hrun]
  refine ⟨_, rfl, ?_⟩
  rw [Closure.Use_eq_foldr]
  have hcl := Closure.foldr_factory r (fun r => ownEffects (h r)) bs []
  simp only [freshContext, List.nil_append] at hcl ⊢
  exact hcl.symm

/-- Witness for C3: a wrapping middleware, then one that rejects requests
without header fields, then the final handler. -/
theorem strategies_same_trace_witness :
    ∃ c, Context.Next 4 { freshContext ⟨"GET", "/x", []⟩ with
        handlers := [fun _ => Behaviour.pass [.print "in"] [.print "out"],
          fun r => if r.Header = [] then Behaviour.stop [.writeHeader 401]
            else Behaviour.pass [] []].map middleware ++ [fun _ => [.string 200 "ok"]] } = .ok c ∧
      c.effects = Closure.Use (Closure.ofCursor (fun _ => [.string 200 "ok"]))
        ([fun _ => Behaviour.pass [.print "in"] [.print "out"],
          fun r => if r.Header = [] then Behaviour.stop [.writeHeader 401]
            else Behaviour.pass [] []].map Closure.factory) [] ⟨"GET", "/x", []⟩ :=
  strategies_same_trace ⟨"GET", "/x", []⟩ _ _ 4 (by decide) (by decide)

/-- C4. Not-found gating: when the route table has no entry for the key
`method-path` of the request, `ServeHTTP` returns, whatever the fuel and the
registered middleware, having written status 404 and the body
"404 Not Found" once and nothing else, and it has called no handler. -/
theorem not_found_gating (fuel : Nat) (e : Engine) (r : Request)
    (habsent : mapGet e.routes (r.Method ++ "-" ++ r.Path) = none) :
    ∃ c, e.ServeHTTP fuel r = .ok c ∧
      c.effects = [Event.writeHeader 404, Event.write "404 Not Found"] ∧
      c.invoked = [] := by
  simp only [Engine.ServeHTTP, habsent]
  exact ⟨_, rfl, rfl, rfl⟩

/-- Witness for C4: `GET /missing` on the engine of `main`. -/
theorem not_found_gating_witness :
    ∃ c, mainEngine.ServeHTTP 0 ⟨"GET", "/missing", []⟩ = .ok c ∧
      c.effects = [Event.writeHeader 404, Event.write "404 Not Found"] ∧
      c.invoked = [] :=
  not_found_gating 0 mainEngine ⟨"GET", "/missing", []⟩ rfl

end Cursor

namespace Cursor

/-! ## Short-circuit and repeated continuation -/

theorem mem_positions (n : Nat) :
    ∀ (start p : Int), p ∈ positions start n → start ≤ p ∧ p < start + n := by
  induction n with
  | zero => intro start p hp; simp [positions] at hp
  | succ k ih =>
    intro start p hp
    simp only [positions, List.mem_cons] at hp
    rcases hp with hp | hp
    · subst hp
      simp only [Nat.cast_add, Nat.cast_one]
      omega
    · have := ih _ _ hp
      simp only [Nat.cast_add, Nat.cast_one]
      omega

theorem count_positions (n : Nat) :
    ∀ (start p : Int), start ≤ p → p < start + n → (positions start n).count p = 1 := by
  induction n with
  | zero => intro start p h1 h2; simp at h2; omega
  | succ k ih =>
    intro start p h1 h2
    simp only [Nat.cast_add, Nat.cast_one] at h2
    by_cases hp : p = start
    · subst hp
      have hnot : p ∉ positions (p + 1) k := by
        intro hmem
        have := mem_positions k _ _ hmem
        omega
      simp [positions, List.count_cons, List.count_eq_zero_of_not_mem hnot]
    · have hne : ¬ (start = p) := fun h => hp h.symm
      simp only [positions, List.count_cons, beq_iff_eq, hne, if_false, add_zero]
      exact ih _ _ (by omega) (by omega)

theorem reach_le (bs : List Behaviour) : reach bs ≤ bs.length + 1 := by
  induction bs with
  | nil => simp [reach]
  | cons b rest ih =>
    cases b <;> simp [reach]
    omega

theorem chain_of_continuing (r : Request) (down : List HandlerFunc) (k : Nat)
    (hdown : ∀ d ∈ down, nextCount (d r) = 1) :
    finalOffset (down.map (fun m => behaviourOf (m r))) k = down.length + k ∧
      reach (down.map (fun m => behaviourOf (m r))) = down.length + 1 := by
  induction down with
  | nil => simp [finalOffset, reach]
  | cons d rest ih =>
    have hd : nextCount (d r) = 1 := hdown d (List.mem_cons_self _ _)
    obtain ⟨h1, h2⟩ := ih (fun x hx => hdown x (List.mem_cons_of_mem _ hx))
    have hb : behaviourOf (d r) =
        .pass (ownEffects (beforeNext (d r))) (ownEffects (afterNext (d r))) := by
      simp [behaviourOf, hd]
    rw [List.map_cons, hb]
    simp only [finalOffset, reach, List.length_cons]
    rw [h1, h2]
    clear h1 h2 ih
    omega

/-- C5, counterexample. Handler 1 returns without calling `Next`, the handler
before it calls `Next` twice: the route handler at position 2 is invoked all
the same. -/
theorem short_circuit_counterexample :
    nextCount [Action.effect (.print "stop")] = 0 ∧
      (Context.Next 3 { freshContext ⟨"GET", "/", []⟩ with
        handlers := [fun _ => [.next, .next], fun _ => [.effect (.print "stop")],
          fun _ => [.effect (.print "route")]] }).map (fun c => (c.invoked, c.effects)) =
      .ok ([0, 1, 2], [.print "stop", .print "route"]) := ⟨rfl, rfl⟩

/-- C5, amended. Short-circuit: when the handler at position `k` (here `m`,
behind the `k` handlers of `front`) returns without calling `Next`, and no
handler before it calls `Next` more than once, the dispatch returns and no
handler at a position greater than `k` has been invoked, whatever the handlers
behind position `k` are. -/
theorem short_circuit (r : Request) (front : List HandlerFunc) (m : HandlerFunc)
    (rest : List HandlerFunc) (fuel : Nat)
    (hfront : ∀ f ∈ front, nextCount (f r) ≤ 1)
    (hstop : nextCount (m r) = 0)
    (hfuel : front.length + 2 ≤ fuel)
    (hsize : (front.length : Int) + rest.length ≤ maxInt) :
    ∃ c, Context.Next fuel { freshContext r with handlers := front ++ m :: rest } = .ok c ∧
      (∀ p ∈ c.invoked, p ≤ (front.length : Int)) ∧ c.index ≤ (front.length : Int) := by
  have hrun := cursor_run r front [] m rest
    { freshContext r with handlers := front ++ m :: rest } fuel hfront (Or.inr hstop) rfl
    (by simp) (by simp [freshContext]) hfuel (by simpa [hstop] using hsize)
  rw [hrun]
  refine ⟨_, rfl, ?_, ?_⟩
  · intro p hp
    simp only [freshContext, List.length_nil, Nat.cast_zero, List.nil_append] at hp
    have h1 := mem_positions _ _ _ hp
    have h2 := reach_le (front.map (fun m => behaviourOf (m r)))
    simp only [List.length_map] at h2
    generalize reach (front.map (fun m => behaviourOf (m r))) = n at h1 h2
    omega
  · simp only [List.length_nil, Nat.cast_zero, zero_add, hstop]
    have h3 : ∀ bs : List Behaviour, finalOffset bs 0 ≤ bs.length := by
      intro bs
      induction bs with
      | nil => simp [finalOffset]
      | cons b tl ih =>
        cases b <;> simp [finalOffset]
        omega
    have h4 := h3 (front.map (fun m => behaviourOf (m r)))
    simp only [List.length_map] at h4
    generalize finalOffset (front.map (fun m => behaviourOf (m r))) 0 = n at h4
    omega

/-- Witness for C5: a logging middleware, a rejecting middleware and a route
handler that is never reached. -/
theorem short_circuit_witness :
    ∃ c, Context.Next 3 { freshContext ⟨"GET", "/", []⟩ with
        handlers := [fun _ => [.effect (.print "log"), .next]] ++
          (fun _ => [.string 401 "no"]) :: [fun _ => [.string 200 "ok"]] } = .ok c ∧
      (∀ p ∈ c.invoked, p ≤ (([fun _ => [.effect (.print "log"), .next]] :
        List HandlerFunc).length : Int)) ∧
      c.index ≤ (([fun _ => [.effect (.print "log"), .next]] : List HandlerFunc).length : Int) :=
  short_circuit ⟨"GET", "/", []⟩ [fun _ => [.effect (.print "log"), .next]]
    (fun _ => [.string 401 "no"]) [fun _ => [.string 200 "ok"]] 3
    (by intro f hf; simp only [List.mem_singleton] at hf; subst hf; decide) rfl (by decide)
    (by decide)

/-- C6, counterexample. Handler 0 calls `Next` twice and the two handlers
behind it continue once each: they are invoked once, not twice, and their
effects appear once. -/
theorem double_continue_counterexample :
    (Context.Next 4 { freshContext ⟨"GET", "/", []⟩ with
        handlers := [fun _ => [.next, .next], fun _ => [.effect (.print "mw"), .next],
          fun _ => [.effect (.print "route"), .next]] }).map
        (fun c => (c.invoked.count 1, c.invoked.count 2, c.effects)) =
      .ok (1, 1, [.print "mw", .print "route"]) := rfl

/-- C6, amended. Double-continue: when the handler at position `k` (here `m`,
behind the `k` handlers of `front`) is invoked, that is `Next` is called with
the cursor on `k - 1`, and it calls `Next` twice while every middleware behind
it continues once, the call returns and has invoked the handlers at positions
`k, k + 1, ..., n` once each, in that order: every handler behind `k`, the route
handler `h` included, has executed exactly once, between the steps `m` performs
before its first `Next` and those it performs after. The cursor ends past the
last position, so the second `Next` and every later one invoke nothing. -/
theorem double_continue_runs_once (r : Request) (front down : List HandlerFunc)
    (m h : HandlerFunc) (c : Context) (fuel : Nat)
    (htwice : nextCount (m r) = 2)
    (hdown : ∀ d ∈ down, nextCount (d r) = 1)
    (hreq : c.Request = r)
    (hh : c.handlers = front ++ m :: (down ++ [h]))
    (hidx : c.index = (front.length : Int) - 1)
    (hfuel : down.length + 3 ≤ fuel)
    (hsize : (front.length : Int) + down.length + nextCount (h r) + 2 ≤ maxInt) :
    ∃ c1, Context.Next fuel c = .ok c1 ∧
      c1.invoked = c.invoked ++ positions front.length (down.length + 2) ∧
      (∀ p : Int, (front.length : Int) < p → p < (c.handlers.length : Int) →
        c1.invoked.count p = c.invoked.count p + 1) ∧
      c1.effects = c.effects ++ ownEffects (beforeNext (m r)) ++
        expected (down.map (fun d => behaviourOf (d r))) (ownEffects (h r)) ++
        ownEffects (afterNext (m r)) ∧
      (c.handlers.length : Int) ≤ c1.index := by
  obtain ⟨f, rfl⟩ : ∃ f, fuel = f + 2 := ⟨fuel - 2, by omega⟩
  have hlen : (c.handlers.length : Int) = front.length + down.length + 2 := by
    simp [hh]
    omega
  have hget : sliceIndex c.handlers (c.index + 1) = some m := by
    rw [hh, hidx]
    simpa using sliceIndex_append_length front (down ++ [h]) m
  have hafter : nextCount (afterNext (m r)) = 1 := by
    have := (split_next (m r) (by omega)).2
    omega
  have key := cursor_run r down (front ++ [m]) h []
    { effects := c.effects ++ ownEffects (beforeNext (m r)), Request := r,
      Params := c.Params, index := c.index + 1,
      handlers := c.handlers, invoked := c.invoked ++ [c.index + 1] } (f + 1)
    (fun d hd => le_of_eq (hdown d hd)) (Or.inl rfl) rfl (by simp [hh]) (by simp [hidx])
    (by omega)
    (by simp only [List.length_append, List.length_singleton, List.length_nil, Nat.cast_add,
          Nat.cast_one, Nat.cast_zero]; omega)
  rw [(chain_of_continuing r down (nextCount (h r)) hdown).1,
    (chain_of_continuing r down (nextCount (h r)) hdown).2] at key
  rw [Next_in (f + 1) c m (by omega) (by omega) hget, hreq,
    runBody_split _ (m r) (by omega)]
  simp only at key ⊢
  rw [key]
  simp only
  rw [runBody_past f (afterNext (m r)) _
    (by simp only [List.length_append, List.length_singleton, Nat.cast_add, Nat.cast_one]; omega)
    (by simp only [List.length_append, List.length_singleton, Nat.cast_add, Nat.cast_one]; omega)]
  have hinv : c.invoked ++ [c.index + 1] ++ positions (↑(front ++ [m]).length) (down.length + 1) =
      c.invoked ++ positions front.length (down.length + 2) := by
    simp [positions, hidx]
  refine ⟨_, rfl, hinv, ?_, ?_, ?_⟩
  · intro p hp1 hp2
    simp only
    rw [hinv, List.count_append, count_positions _ _ _ (by omega) (by push_cast; omega)]
  · simp only [List.append_assoc]
  · simp only [List.length_append, List.length_singleton, Nat.cast_add, Nat.cast_one]
    omega

/-- Witness for C6: the first handler continues twice, a middleware and the
route handler follow. -/
theorem double_continue_runs_once_witness :
    ∃ c1, Context.Next 4 { freshContext ⟨"GET", "/", []⟩ with
        handlers := [fun _ => [.effect (.print "a"), .next, .effect (.print "b"), .next],
          fun _ => [.effect (.print "mw"), .next], fun _ => [.string 200 "ok"]] } = .ok c1 ∧
      c1.invoked = [0, 1, 2] ∧
      (∀ p : Int, 0 < p → p < 3 → c1.invoked.count p = 1) ∧
      c1.effects = [.print "a", .print "mw", .writeHeader 200, .write "ok", .print "b"] ∧
      (3 : Int) ≤ c1.index :=
  double_continue_runs_once ⟨"GET", "/", []⟩ [] [fun _ => [.effect (.print "mw"), .next]]
    (fun _ => [.effect (.print "a"), .next, .effect (.print "b"), .next])
    (fun _ => [.string 200 "ok"])
    { freshContext ⟨"GET", "/", []⟩ with
        handlers := [fun _ => [.effect (.print "a"), .next, .effect (.print "b"), .next],
          fun _ => [.effect (.print "mw"), .next], fun _ => [.string 200 "ok"]] } 4
    rfl (by intro d hd; simp only [List.mem_singleton] at hd; subst hd; rfl) rfl rfl rfl
    (by decide) (by decide)

/-- C7, counterexample. `Next` on a context without handlers and with the
cursor on -1 leaves the cursor on 0: the context after the call is not the
context before it. And with the cursor on the largest `int` the increment
wraps around and the access to `c.handlers` panics. -/
theorem next_past_end_counterexample :
    Context.Next 1 (freshContext ⟨"GET", "/", []⟩) ≠ .ok (freshContext ⟨"GET", "/", []⟩) ∧
      (Context.Next 1 (freshContext ⟨"GET", "/", []⟩)).map Context.index = .ok 0 ∧
      (freshContext ⟨"GET", "/", []⟩).index = -1 ∧
      (Context.Next 1 { freshContext ⟨"GET", "/", []⟩ with index := maxInt }).map
        Context.index = .error .indexOutOfRange := by
  refine ⟨?_, rfl, rfl, rfl⟩
  intro heq
  have h2 : (Except.ok (0 : Int) : Except Fault Int) = .ok (-1) :=
    congrArg (Except.map Context.index) heq
  exact absurd (Except.ok.inj h2) (by decide)

/-- C7, amended. Continue-past-end: for a context whose cursor is on or past
the last position of its handlers (an empty sequence included) and below the
largest `int`, `Next` returns, invokes no handler and changes nothing of the
context but the cursor, which it moves forward by one. -/
theorem next_past_end (fuel : Nat) (c : Context)
    (hfuel : 1 ≤ fuel)
    (hpast : (c.handlers.length : Int) - 1 ≤ c.index)
    (hmax : c.index < maxInt) :
    Context.Next fuel c = .ok { c with index := c.index + 1 } := by
  obtain ⟨f, rfl⟩ : ∃ f, fuel = f + 1 := ⟨fuel - 1, by omega⟩
  have hw : wrapInt (c.index + 1) = c.index + 1 :=
    wrapInt_of_le _ (by omega) (by omega)
  have hn : ¬ (c.index + 1 < (c.handlers.length : Int)) := by omega
  simp only [Context.Next, hw, hn, if_false]

/-- Witness for C7: the cursor is on the only handler. -/
theorem next_past_end_witness :
    Context.Next 1 { freshContext ⟨"GET", "/", []⟩ with
        handlers := [fun _ => [.next]], index := 0 } =
      .ok { freshContext ⟨"GET", "/", []⟩ with handlers := [fun _ => [.next]], index := 0 + 1 } :=
  next_past_end 1 { freshContext ⟨"GET", "/", []⟩ with
    handlers := [fun _ => [.next]], index := 0 } (by decide) (by decide) (by decide)

end Cursor

/-! ## The route table -/

theorem filter_ne_filter_ne {V : Type} (m : List (String × V)) (k : String) :
    (m.filter (fun e => decide (e.1 ≠ k))).filter (fun e => decide (e.1 ≠ k)) =
      m.filter (fun e => decide (e.1 ≠ k)) := by
  rw [List.filter_filter]
  simp

theorem filter_eq_filter_ne {V : Type} (m : List (String × V)) (k : String) :
    (m.filter (fun e => decide (e.1 ≠ k))).filter (fun e => decide (e.1 = k)) = [] := by
  rw [List.filter_filter, List.filter_eq_nil_iff]
  intro e _
  simp

theorem mapGet_filter_ne {V : Type} (m : List (String × V)) (k k1 : String) (hne : k1 ≠ k) :
    mapGet (m.filter (fun e => decide (e.1 ≠ k))) k1 = mapGet m k1 := by
  induction m with
  | nil => rfl
  | cons e rest ih =>
    obtain ⟨ke, v⟩ := e
    by_cases hk : ke = k
    · have hk1 : ¬ (ke = k1) := fun h => hne (h.symm.trans hk)
      rw [List.filter_cons_of_neg (by simpa using hk), ih, mapGet, if_neg hk1]
    · rw [List.filter_cons_of_pos (by simpa using hk), mapGet, mapGet, ih]

theorem mapGet_mapSet {V : Type} (m : List (String × V)) (k k1 : String) (v : V) :
    mapGet (mapSet m k v) k1 = if k1 = k then some v else mapGet m k1 := by
  by_cases h : k1 = k
  · subst h
    simp [mapSet, mapGet]
  · have h2 : ¬ (k = k1) := fun e => h e.symm
    simp only [mapSet, mapGet, h, h2, if_false]
    exact mapGet_filter_ne m k k1 h

theorem mapCount_mapSet {V : Type} (m : List (String × V)) (k : String) (v : V) :
    mapCount (mapSet m k v) k = 1 := by
  simp [mapCount, mapSet, List.filter_cons, filter_eq_filter_ne]

theorem mapSet_mapSet {V : Type} (m : List (String × V)) (k : String) (v1 v2 : V) :
    mapSet (mapSet m k v1) k v2 = mapSet m k v2 := by
  simp [mapSet, List.filter_cons, filter_ne_filter_ne]

namespace Cursor

/-- C8. Registry last-write-wins: after `GET(p, h1)` followed by `GET(p, h2)`
the route table holds exactly one entry for the key of `p`, that entry is
`h2`, a GET request for `p` is dispatched to the chain that ends in `h2`, the
engine is the one `GET(p, h2)` alone gives (so `h1` is never dispatched to),
and the entries and the lookups for every other key are unchanged. -/
theorem registry_last_write_wins (e : Engine) (p : String) (h1 h2 : HandlerFunc) :
    mapCount ((e.GET p h1).GET p h2).routes ("GET-" ++ p) = 1 ∧
      mapGet ((e.GET p h1).GET p h2).routes ("GET-" ++ p) = some h2 ∧
      (∀ (fuel : Nat) (hdr : List (String × String)),
        ((e.GET p h1).GET p h2).ServeHTTP fuel ⟨"GET", p, hdr⟩ =
          Context.Next fuel
            { freshContext ⟨"GET", p, hdr⟩ with handlers := e.middlewares ++ [h2] }) ∧
      (e.GET p h1).GET p h2 = e.GET p h2 ∧
      ((e.GET p h1).GET p h2).routes.filter (fun en => decide (en.1 ≠ "GET-" ++ p)) =
        e.routes.filter (fun en => decide (en.1 ≠ "GET-" ++ p)) ∧
      (∀ k : String, mapGet ((e.GET p h1).GET p h2).routes k =
        if k = "GET-" ++ p then some h2 else mapGet e.routes k) := by
  have heq : (e.GET p h1).GET p h2 = e.GET p h2 := by
    simp [Engine.GET, mapSet_mapSet]
  have hget : mapGet (e.GET p h2).routes ("GET-" ++ p) = some h2 := by
    simp [Engine.GET, mapGet_mapSet]
  rw [heq]
  refine ⟨?_, hget, ?_, rfl, ?_, ?_⟩
  · simp [Engine.GET, mapCount_mapSet]
  · intro fuel hdr
    have hkey : mapGet (e.GET p h2).routes
        ((⟨"GET", p, hdr⟩ : Request).Method ++ "-" ++ (⟨"GET", p, hdr⟩ : Request).Path) =
        some h2 := by
      rw [get_key _ rfl]
      exact hget
    rw [ServeHTTP_found fuel _ _ h2 hkey]
    rfl
  · simp [Engine.GET, mapSet, List.filter_cons, filter_ne_filter_ne]
  · intro k
    simp [Engine.GET, mapGet_mapSet]

theorem get_key_inj (p q : String) (h : "GET-" ++ p = "GET-" ++ q) : p = q := by
  have hd := congrArg String.data h
  simp only [String.data_append] at hd
  exact String.ext (List.append_cancel_left hd)

/-- For a request whose method is "GET", a registration with `GET` decides the
resolution exactly by the path. -/
theorem resolve_after_GET (e : Engine) (p : String) (h : HandlerFunc) (r : Request)
    (hmethod : r.Method = "GET") :
    mapGet (e.GET p h).routes (r.Method ++ "-" ++ r.Path) =
      if r.Path = p then some h else mapGet e.routes (r.Method ++ "-" ++ r.Path) := by
  rw [get_key r hmethod]
  simp only [Engine.GET, mapGet_mapSet]
  by_cases hp : r.Path = p
  · simp [hp]
  · have hk : ¬ ("GET-" ++ r.Path = "GET-" ++ p) := fun hk => hp (get_key_inj _ _ hk)
    simp [hp, hk]

/-- C9, the failing input. A handler registered with `GET` for the path
`"x-" + "/y"` is reached by a request whose method is "GET-x" and whose path is
"/y": the two keys are the same string. -/
theorem route_key_collision :
    ((NewEngine.GET ("x-" ++ "/y") (fun _ => [.string 200 "hi"])).ServeHTTP 2
        ⟨"GET-x", "/y", []⟩).map (fun c => (c.invoked, c.effects)) =
      .ok ([0], [.writeHeader 200, .write "hi"]) := rfl

theorem middlewares_foldl_Use (ms : List HandlerFunc) :
    ∀ e : Engine, (ms.foldl Engine.Use e).middlewares = e.middlewares ++ ms := by
  induction ms with
  | nil => intro e; simp
  | cons m rest ih => intro e; simp [ih, Engine.Use]

/-- C10. Handler sequence invariant: for a request that resolves to the route
handler `h`, `ServeHTTP` is one call of `Next` on the context whose handlers
are the middleware list followed by `h` and whose cursor is -1; that sequence
has length `len(middlewares) + 1`, ends in `h` and starts with the middleware,
which `Use` keeps in registration order; the first `Next` moves the cursor to 0
and invokes the handler at position 0. -/
theorem handler_sequence_invariant (fuel : Nat) (e : Engine) (r : Request) (h : HandlerFunc)
    (hroute : mapGet e.routes (r.Method ++ "-" ++ r.Path) = some h) :
    e.ServeHTTP fuel r =
        Context.Next fuel
          { effects := [], Request := r, Params := [], index := -1,
            handlers := e.middlewares ++ [h], invoked := [] } ∧
      (e.middlewares ++ [h]).length = e.middlewares.length + 1 ∧
      (e.middlewares ++ [h]).getLast? = some h ∧
      (e.middlewares ++ [h]).take e.middlewares.length = e.middlewares ∧
      (∀ ms : List HandlerFunc, (ms.foldl Engine.Use NewEngine).middlewares = ms) ∧
      (∃ first, sliceIndex (e.middlewares ++ [h]) 0 = some first ∧
        Context.Next (fuel + 1)
            { effects := [], Request := r, Params := [], index := -1,
              handlers := e.middlewares ++ [h], invoked := [] } =
          runBody (Context.Next fuel) (first r)
            { effects := [], Request := r, Params := [], index := 0,
              handlers := e.middlewares ++ [h], invoked := [0] }) := by
  refine ⟨ServeHTTP_found fuel e r h hroute, by simp, by simp, by simp, ?_, ?_⟩
  · intro ms
    rw [middlewares_foldl_Use]
    rfl
  · have hfirst : ∃ first, sliceIndex (e.middlewares ++ [h]) 0 = some first := by
      cases hm : e.middlewares with
      | nil => exact ⟨h, rfl⟩
      | cons m rest => exact ⟨m, rfl⟩
    obtain ⟨first, hf⟩ := hfirst
    refine ⟨first, hf, ?_⟩
    have hstep := Next_in fuel
      { effects := [], Request := r, Params := [], index := -1,
        handlers := e.middlewares ++ [h], invoked := [] } first
      (by show (-1 : Int) < maxInt; decide)
      (by simp only [List.length_append, List.length_singleton, Nat.cast_add, Nat.cast_one]
          omega)
      (by simpa using hf)
    simpa using hstep

/-- Witness for C10: `GET /hello` on the engine of `main`. -/
theorem handler_sequence_invariant_witness :
    mainEngine.ServeHTTP 5 ⟨"GET", "/hello", []⟩ =
        Context.Next 5
          { effects := [], Request := ⟨"GET", "/hello", []⟩, Params := [], index := -1,
            handlers := mainEngine.middlewares ++ [fun _ => [.string 200 "Hello from my mini Gin!"]],
            invoked := [] } :=
  (handler_sequence_invariant 5 mainEngine ⟨"GET", "/hello", []⟩
    (fun _ => [.string 200 "Hello from my mini Gin!"]) rfl).1

end Cursor

namespace Closure

/-! ## The closure scenario of `main` -/

/-- C18. Algebraic laws of closure composition: `Use h` with no factories is
`h`, and `Use h (ms ++ ns)` is `Use (Use h ns) ms`: composing with a
concatenated list wraps with the later factories first and then with the
earlier ones. -/
theorem use_laws (h : HandlerFunc) :
    Use h [] = h ∧
      ∀ ms ns : List (HandlerFunc → HandlerFunc), Use h (ms ++ ns) = Use (Use h ns) ms := by
  refine ⟨rfl, ?_⟩
  intro ms ns
  rw [Use_eq_foldr, Use_eq_foldr, Use_eq_foldr, List.foldr_append]

theorem log_line_ne_rate_line (a : String) : "[LOG] " ++ a ≠ "[RateLimit] OK\n" := by
  intro h
  have hd := congrArg String.data h
  rw [String.data_append] at hd
  have h2 := congrArg (fun l => l.get? 1) hd
  simp only [List.get?] at h2
  revert h2
  decide

/-- C11. Closure scenario, rejection: for a request without an Authorization
header, the handler `Use(Hello, Logging, Auth, RateLimit)` prints the log
line, then performs Auth's error response with status 401, and nothing else:
the body of `Hello` is not written, the line of `RateLimit` is not printed,
and the last effect is the write of Auth's message. The outcome is the same
whatever the base handler and the third factory are: neither is called. -/
theorem closure_rejection (r : Request)
    (hno : mapGet r.Header "Authorization" = none) :
    Use Hello [Logging, Auth, RateLimit] [] r =
        [Event.print ("[LOG] " ++ r.Method ++ " " ++ r.Path ++ "\n"),
         Event.setHeader "Content-Type" "text/plain; charset=utf-8",
         Event.setHeader "X-Content-Type-Options" "nosniff",
         Event.writeHeader 401,
         Event.write "Unauthorized: missing token\n"] ∧
      (∀ (h : HandlerFunc) (f : HandlerFunc → HandlerFunc),
        Use h [Logging, Auth, f] [] r = Use Hello [Logging, Auth, RateLimit] [] r) ∧
      Event.write "Hello with middleware!\n" ∉ Use Hello [Logging, Auth, RateLimit] [] r ∧
      Event.print "[RateLimit] OK\n" ∉ Use Hello [Logging, Auth, RateLimit] [] r ∧
      (Use Hello [Logging, Auth, RateLimit] [] r).getLast? =
        some (Event.write "Unauthorized: missing token\n") := by
  have hall : ∀ (h : HandlerFunc) (f : HandlerFunc → HandlerFunc),
      Use h [Logging, Auth, f] [] r =
        [Event.print ("[LOG] " ++ r.Method ++ " " ++ r.Path ++ "\n"),
         Event.setHeader "Content-Type" "text/plain; charset=utf-8",
         Event.setHeader "X-Content-Type-Options" "nosniff",
         Event.writeHeader 401,
         Event.write "Unauthorized: missing token\n"] := by
    intro h f
    rw [Use_eq_foldr]
    simp only [List.foldr_cons, List.foldr_nil, Logging, Auth, headerGet, hno, if_true,
      httpError, List.nil_append]
    rfl
  have hlog : "[LOG] " ++ r.Method ++ " " ++ r.Path ++ "\n" ≠ "[RateLimit] OK\n" := by
    rw [String.append_assoc, String.append_assoc, String.append_assoc]
    exact log_line_ne_rate_line _
  refine ⟨hall Hello RateLimit, ?_, ?_, ?_, ?_⟩
  · intro h f
    rw [hall h f, hall Hello RateLimit]
  · rw [hall Hello RateLimit]
    simp
  · rw [hall Hello RateLimit]
    simp [hlog.symm]
  · rw [hall Hello RateLimit]
    simp

/-- Witness for C11: a GET request that carries only another header field. -/
theorem closure_rejection_witness :
    Use Hello [Logging, Auth, RateLimit] [] ⟨"GET", "/", [("Accept", "text/plain")]⟩ =
        [Event.print ("[LOG] " ++ "GET" ++ " " ++ "/" ++ "\n"),
         Event.setHeader "Content-Type" "text/plain; charset=utf-8",
         Event.setHeader "X-Content-Type-Options" "nosniff",
         Event.writeHeader 401,
         Event.write "Unauthorized: missing token\n"] :=
  (closure_rejection ⟨"GET", "/", [("Accept", "text/plain")]⟩ rfl).1

/-- C12, counterexample. The request carries an Authorization header whose
value is empty: `Auth` answers 401 and the body of `Hello` is not written. -/
theorem closure_acceptance_counterexample :
    Use Hello [Logging, Auth, RateLimit] [] ⟨"GET", "/", [("Authorization", "")]⟩ =
      [Event.print "[LOG] GET /\n",
       Event.setHeader "Content-Type" "text/plain; charset=utf-8",
       Event.setHeader "X-Content-Type-Options" "nosniff",
       Event.writeHeader 401,
       Event.write "Unauthorized: missing token\n"] := by
  decide

/-- C12, amended. Closure scenario, acceptance: for a request whose
Authorization header has a non-empty value, the handler
`Use(Hello, Logging, Auth, RateLimit)` prints the log line, then (Auth's check
having passed) the line of `RateLimit`, then writes the body of `Hello`, and
nothing else. -/
theorem closure_acceptance (r : Request)
    (htoken : headerGet r.Header "Authorization" ≠ "") :
    Use Hello [Logging, Auth, RateLimit] [] r =
      [Event.print ("[LOG] " ++ r.Method ++ " " ++ r.Path ++ "\n"),
       Event.print "[RateLimit] OK\n",
       Event.write "Hello with middleware!\n"] := by
  rw [Use_eq_foldr]
  simp only [List.foldr_cons, List.foldr_nil, Logging, Auth, RateLimit, Hello, htoken,
    if_false, List.nil_append]
  rfl

/-- Witness for C12: a GET request with a bearer token. -/
theorem closure_acceptance_witness :
    Use Hello [Logging, Auth, RateLimit] [] ⟨"GET", "/", [("Authorization", "Bearer t")]⟩ =
      [Event.print ("[LOG] " ++ "GET" ++ " " ++ "/" ++ "\n"),
       Event.print "[RateLimit] OK\n",
       Event.write "Hello with middleware!\n"] :=
  closure_acceptance ⟨"GET", "/", [("Authorization", "Bearer t")]⟩ (by decide)

end Closure

namespace Cursor

/-! ## The cursor scenario of `main` -/

/-- C13. Cursor scenario: on the engine of `main`, a GET /hello request
returns (from fuel 3 on) having printed the log line for GET /hello, then
"[TIMER] before", then written status 200 and the body once, then printed
"[TIMER] after"; the three handlers were called once each, in order. A
GET /missing request writes status 404 and its body and prints nothing. -/
theorem main_scenario (k : Nat) (hdr : List (String × String)) :
    (mainEngine.ServeHTTP (k + 3) ⟨"GET", "/hello", hdr⟩).map
        (fun c => (c.effects, c.invoked)) =
      .ok ([.print "[LOG] GET /hello\n", .print "[TIMER] before\n", .writeHeader 200,
        .write "Hello from my mini Gin!", .print "[TIMER] after\n"], [0, 1, 2]) ∧
    (mainEngine.ServeHTTP k ⟨"GET", "/missing", hdr⟩).map (fun c => (c.effects, c.invoked)) =
      .ok ([.writeHeader 404, .write "404 Not Found"], []) :=
  ⟨rfl, rfl⟩

end Cursor

namespace Cursor

/-! ## Every dispatch: the cursor only moves forward -/

theorem nextsBehind_past (hs : List HandlerFunc) (r : Request) (i : Int)
    (hge : (hs.length : Int) ≤ i + 1) : nextsBehind hs r i = 0 := by
  have hdrop : hs.drop (i + 1).toNat = [] := by
    apply List.drop_eq_nil_of_le
    omega
  simp [nextsBehind, hdrop]

theorem nextsBehind_step (hs : List HandlerFunc) (r : Request) (i : Int) (h : HandlerFunc)
    (hidx : -1 ≤ i) (hget : sliceIndex hs (i + 1) = some h) :
    nextsBehind hs r i = nextCount (h r) + nextsBehind hs r (i + 1) := by
  have h0 : (0 : Int) ≤ i + 1 := by omega
  simp only [sliceIndex, h0, if_true] at hget
  have hlt : (i + 1).toNat < hs.length := by
    by_contra hnot
    rw [List.get?_eq_none.mpr (by omega)] at hget
    exact absurd hget (by simp)
  have hval : hs.get ⟨(i + 1).toNat, hlt⟩ = h := by
    rw [List.get?_eq_get hlt] at hget
    exact Option.some.inj hget
  have hnat : (i + 1 + 1).toNat = (i + 1).toNat + 1 := by omega
  have hdrop : hs.drop (i + 1).toNat = h :: hs.drop ((i + 1).toNat + 1) := by
    rw [← hval]
    exact List.drop_eq_getElem_cons hlt
  simp only [nextsBehind, hnat]
  rw [hdrop]
  simp

theorem callsIn_append (hs : List HandlerFunc) (r : Request) (a b : List Int) :
    callsIn hs r (a ++ b) = callsIn hs r a + callsIn hs r b := by
  simp [callsIn]

theorem Advance.of_effects (c : Context) (evs : List Event) :
    Advance 0 c { c with effects := evs } := by
  refine ⟨rfl, rfl, by simp, [], by simp, List.Pairwise.nil, by simp, by simp [callsIn]⟩

theorem Advance.of_same (n : Nat) (c c2 c1 : Context)
    (hi : c2.index = c.index) (hh : c2.handlers = c.handlers)
    (hr : c2.Request = c.Request) (hv : c2.invoked = c.invoked)
    (h : Advance n c2 c1) : Advance n c c1 := by
  unfold Advance at h ⊢
  rw [hi, hh, hr, hv] at h
  exact h

theorem Advance.index_le (n : Nat) (c c1 : Context) (h : Advance n c c1) :
    c.index + n ≤ c1.index := by
  obtain ⟨_, _, _, new, _, _, _, hidx⟩ := h
  omega

theorem Advance.trans (n m : Nat) (c c1 c2 : Context)
    (h1 : Advance n c c1) (h2 : Advance m c1 c2) : Advance (n + m) c c2 := by
  have hle1 := Advance.index_le n c c1 h1
  have hle2 := Advance.index_le m c1 c2 h2
  obtain ⟨hh1, hr1, hp1, new1, hv1, hs1, hb1, hi1⟩ := h1
  obtain ⟨hh2, hr2, hp2, new2, hv2, hs2, hb2, hi2⟩ := h2
  simp only [hh1, hr1] at hp2 hb2 hi2
  refine ⟨hh2.trans hh1, hr2.trans hr1, ?_, new1 ++ new2, ?_, ?_, ?_, ?_⟩
  · push_cast
    omega
  · rw [hv2, hv1, List.append_assoc]
  · rw [List.pairwise_append]
    refine ⟨hs1, hs2, ?_⟩
    intro a ha b hb
    have := hb1 a ha
    have := hb2 b hb
    omega
  · intro p hp
    rcases List.mem_append.mp hp with hp | hp
    · have := hb1 p hp
      omega
    · have := hb2 p hp
      omega
  · rw [callsIn_append]
    push_cast
    omega

/-- Entering the handler behind the cursor: what its body does, seen from the
call of `c.Next()` that invoked it. -/
theorem Advance.enter (c c1 : Context) (h : HandlerFunc)
    (hidx : -1 ≤ c.index)
    (hlt : c.index + 1 < (c.handlers.length : Int))
    (hget : sliceIndex c.handlers (c.index + 1) = some h)
    (hbody : Advance (nextCount (h c.Request))
      { c with index := c.index + 1, invoked := c.invoked ++ [c.index + 1] } c1) :
    Advance 1 c c1 := by
  have hstep := nextsBehind_step c.handlers c.Request c.index h hidx hget
  obtain ⟨hh, hr, hp, new, hv, hs, hb, hi⟩ := hbody
  simp only at hh hr hp hv hb hi
  refine ⟨hh, hr, ?_, (c.index + 1) :: new, ?_, ?_, ?_, ?_⟩
  · rw [hstep]
    push_cast
    omega
  · rw [hv]
    simp
  · rw [List.pairwise_cons]
    refine ⟨?_, hs⟩
    intro p hp
    exact (hb p hp).1
  · intro p hp
    rcases List.mem_cons.mp hp with hp | hp
    · subst hp
      omega
    · have := hb p hp
      omega
  · have hc : callsIn c.handlers c.Request ((c.index + 1) :: new) =
        nextCount (h c.Request) + callsIn c.handlers c.Request new := by
      simp [callsIn, hget]
    rw [hc]
    push_cast
    omega

/-- A handler body, given what a call of `c.Next()` with the fuel `f` does. -/
theorem runBody_advance (f : Nat)
    (hnext : ∀ c : Context, -1 ≤ c.index → 1 ≤ f →
      (c.handlers.length : Int) - c.index ≤ f →
      c.index + (nextsBehind c.handlers c.Request c.index : Int) + 1 ≤ maxInt →
      ∃ c1, Context.Next f c = .ok c1 ∧ Advance 1 c c1)
    (body : List Action) :
    ∀ c : Context, -1 ≤ c.index → (nextCount body ≠ 0 → 1 ≤ f) →
      (c.handlers.length : Int) - c.index ≤ f →
      c.index + (nextsBehind c.handlers c.Request c.index : Int) + nextCount body ≤ maxInt →
      ∃ c1, runBody (Context.Next f) body c = .ok c1 ∧ Advance (nextCount body) c c1 := by
  induction body with
  | nil =>
    intro c _ _ _ _
    refine ⟨c, rfl, ?_⟩
    have := Advance.of_effects c c.effects
    simpa [nextCount] using this
  | cons a rest ih =>
    intro c hidx hf hfuel hmax
    cases a with
    | next =>
      simp only [nextCount, Nat.cast_add, Nat.cast_one] at hmax
      have hf1 : 1 ≤ f := hf (by simp [nextCount])
      obtain ⟨c1, hrun, hadv⟩ := hnext c hidx hf1 hfuel (by omega)
      have hle := Advance.index_le 1 c c1 hadv
      have hadv2 := hadv
      obtain ⟨hh, hr, hp, _⟩ := hadv2
      obtain ⟨c2, hrun2, hadv2⟩ := ih c1 (by omega) (fun _ => hf1)
        (by rw [hh]; omega) (by rw [hh, hr]; push_cast at hp; omega)
      refine ⟨c2, ?_, ?_⟩
      · rw [runBody, hrun]
        exact hrun2
      · have := Advance.trans 1 (nextCount rest) c c1 c2 hadv hadv2
        rw [Nat.add_comm] at this
        exact this
    | effect e =>
      obtain ⟨c1, hrun, hadv⟩ := ih { c with effects := c.effects ++ [e] } hidx
        (fun hn => hf (by simpa [nextCount] using hn)) hfuel (by simpa [nextCount] using hmax)
      exact ⟨c1, by rw [runBody]; exact hrun,
        Advance.of_same _ c _ c1 rfl rfl rfl rfl (by simpa [nextCount] using hadv)⟩
    | string code msg =>
      obtain ⟨c1, hrun, hadv⟩ := ih (c.String code msg) hidx
        (fun hn => hf (by simpa [nextCount] using hn)) hfuel (by simpa [nextCount] using hmax)
      exact ⟨c1, by rw [runBody]; exact hrun,
        Advance.of_same _ c _ c1 rfl rfl rfl rfl (by simpa [nextCount] using hadv)⟩
    | json code data =>
      obtain ⟨c1, hrun, hadv⟩ := ih (c.JSON code data) hidx
        (fun hn => hf (by simpa [nextCount] using hn)) hfuel (by simpa [nextCount] using hmax)
      exact ⟨c1, by rw [runBody]; exact hrun,
        Advance.of_same _ c _ c1 rfl rfl rfl rfl (by simpa [nextCount] using hadv)⟩

/-- Every call of `c.Next()` with the cursor on -1 or further returns, given
fuel for the handlers behind the cursor and room below the largest `int` for
the calls of `c.Next()` those handlers can make. -/
theorem Next_advance (fuel : Nat) :
    ∀ c : Context, -1 ≤ c.index → 1 ≤ fuel →
      (c.handlers.length : Int) - c.index ≤ fuel →
      c.index + (nextsBehind c.handlers c.Request c.index : Int) + 1 ≤ maxInt →
      ∃ c1, Context.Next fuel c = .ok c1 ∧ Advance 1 c c1 := by
  induction fuel with
  | zero => intro c _ h1 _ _; omega
  | succ f ih =>
    intro c hidx _ hfuel hmax
    by_cases hlt : c.index + 1 < (c.handlers.length : Int)
    · have hsome : ∃ h, sliceIndex c.handlers (c.index + 1) = some h := by
        have h0 : (0 : Int) ≤ c.index + 1 := by omega
        have hn : (c.index + 1).toNat < c.handlers.length := by omega
        exact ⟨c.handlers.get ⟨(c.index + 1).toNat, hn⟩, by
          simp only [sliceIndex, h0, if_true]
          exact List.get?_eq_get hn⟩
      obtain ⟨h, hget⟩ := hsome
      have hstep := nextsBehind_step c.handlers c.Request c.index h hidx hget
      obtain ⟨c1, hrun, hadv⟩ := runBody_advance f ih (h c.Request)
        { c with index := c.index + 1, invoked := c.invoked ++ [c.index + 1] }
        (by simp only; omega) (fun _ => by push_cast at hfuel; omega)
        (by simp only; push_cast at hfuel; omega)
        (by simp only; rw [hstep] at hmax; push_cast at hmax; omega)
      refine ⟨c1, ?_, Advance.enter c c1 h hidx hlt hget hadv⟩
      rw [Next_in f c h (by omega) hlt hget]
      exact hrun
    · have hpast := nextsBehind_past c.handlers c.Request c.index (by omega)
      have hpast2 := nextsBehind_past c.handlers c.Request (c.index + 1) (by omega)
      refine ⟨{ c with index := c.index + 1 }, Next_past f c (by omega) (by omega), rfl, rfl, ?_,
        [], by simp, List.Pairwise.nil, by simp, by simp [callsIn]⟩
      simp only [hpast, hpast2]
      push_cast
      omega

theorem length_le_of_increasing (l : List Int) :
    ∀ lo hi : Int, l.Pairwise (· < ·) → (∀ p ∈ l, lo ≤ p ∧ p < hi) →
      l.length ≤ (hi - lo).toNat := by
  induction l with
  | nil => intro lo hi _ _; simp
  | cons x t ih =>
    intro lo hi hs hb
    rw [List.pairwise_cons] at hs
    have hx := hb x (List.mem_cons_self _ _)
    have ht := ih (x + 1) hi hs.2 (fun p hp =>
      ⟨by have := hs.1 p hp; omega, (hb p (List.mem_cons_of_mem _ hp)).2⟩)
    simp only [List.length_cons]
    omega

/-- C17. Bounded dispatch: for every handler sequence `hs` and every request,
with handler bodies that call `Next` any finite number of times, a dispatch
started at index -1 returns (from fuel `len(hs) + 1` on); the handlers invoked
are at positions inside `hs`, in strictly increasing order, so each position
is invoked at most once and there are at most `len(hs)` invocations. The bound
on the number of calls of `Next` in the bodies keeps the `int` cursor from
wrapping around. -/
theorem bounded_dispatch (r : Request) (hs : List HandlerFunc) (fuel : Nat)
    (hfuel : hs.length + 1 ≤ fuel)
    (hsize : (((hs.map (fun h => nextCount (h r))).sum : Nat) : Int) ≤ maxInt) :
    ∃ c, Context.Next fuel { freshContext r with handlers := hs } = .ok c ∧
      c.invoked.Pairwise (· < ·) ∧
      (∀ p ∈ c.invoked, 0 ≤ p ∧ p < (hs.length : Int)) ∧
      (∀ p : Int, c.invoked.count p ≤ 1) ∧
      c.invoked.length ≤ hs.length := by
  have hbehind : ((nextsBehind hs r (-1) : Nat) : Int) ≤ maxInt := by
    simpa [nextsBehind] using hsize
  clear hsize
  obtain ⟨c, hrun, hadv⟩ := Next_advance fuel { freshContext r with handlers := hs }
    (by simp [freshContext]) (by omega)
    (by simp only [freshContext]; omega)
    (by simp only [freshContext]; omega)
  obtain ⟨_, _, _, new, hv, hsorted, hb, _⟩ := hadv
  simp only [freshContext, List.nil_append] at hv hb
  have hbound : ∀ p ∈ c.invoked, 0 ≤ p ∧ p < (hs.length : Int) := by
    intro p hp
    rw [hv] at hp
    have := hb p hp
    omega
  refine ⟨c, hrun, by rw [hv]; exact hsorted, hbound, ?_, ?_⟩
  · intro p
    have hnodup : c.invoked.Nodup := by
      rw [hv]
      exact hsorted.imp (fun h => ne_of_lt h)
    exact List.nodup_iff_count_le_one.mp hnodup p
  · have := length_le_of_increasing c.invoked 0 hs.length (by rw [hv]; exact hsorted) hbound
    simpa using this

/-- Witness for C17: the first handler continues three times, the second does
not continue, the third continues twice. -/
theorem bounded_dispatch_witness :
    ∃ c, Context.Next 4 { freshContext ⟨"GET", "/", []⟩ with
        handlers := [fun _ => [.next, .next, .next], fun _ => [.effect (.print "b")],
          fun _ => [.next, .next]] } = .ok c ∧
      c.invoked.Pairwise (· < ·) ∧
      (∀ p ∈ c.invoked, 0 ≤ p ∧ p < (3 : Int)) ∧
      (∀ p : Int, c.invoked.count p ≤ 1) ∧
      c.invoked.length ≤ 3 :=
  bounded_dispatch ⟨"GET", "/", []⟩
    [fun _ => [.next, .next, .next], fun _ => [.effect (.print "b")], fun _ => [.next, .next]]
    4 (by decide) (by decide)

/-- C15, counterexample. With the cursor on the largest `int`, `c.index++`
wraps around to the smallest one instead of `i + 1`; that index passes the
test `c.index < len(c.handlers)` and the access `c.handlers[c.index]` is
outside the sequence. -/
theorem next_single_step_counterexample :
    (-1 : Int) ≤ maxInt ∧ wrapInt (maxInt + 1) = -9223372036854775808 ∧
      sliceIndex ([] : List HandlerFunc) (wrapInt (maxInt + 1)) = none ∧
      (Context.Next 1 { freshContext ⟨"GET", "/", []⟩ with index := maxInt }).map
        Context.index = .error .indexOutOfRange := by
  refine ⟨by decide, by decide, rfl, rfl⟩

/-- C15, amended. Single step of the continue primitive: for every Context
with index `i`, `-1 ≤ i` and `i` below the largest `int`, `Next` sets the index
to `i + 1` and then, when `i + 1 < len(hs)`, invokes `hs[i + 1]`, which exists,
on the same context, and otherwise returns without invoking anything. Steps
of a handler body other than `Next` leave the cursor where it is. And every
call of `Next` in a dispatch returns with the cursor advanced, by exactly one
for each call of `Next` made: this one and those in the bodies of the handlers
it invoked. -/
theorem next_single_step (c : Context) (fuel : Nat)
    (hidx : -1 ≤ c.index) (hmax : c.index < maxInt) :
    (c.index + 1 < (c.handlers.length : Int) →
      ∃ h, sliceIndex c.handlers (c.index + 1) = some h ∧
        Context.Next (fuel + 1) c =
          runBody (Context.Next fuel) (h c.Request)
            { c with index := c.index + 1, invoked := c.invoked ++ [c.index + 1] }) ∧
    ((c.handlers.length : Int) ≤ c.index + 1 →
      Context.Next (fuel + 1) c = .ok { c with index := c.index + 1 }) ∧
    (∀ (nx : Context → Except Fault Context) (body : List Action), nextCount body = 0 →
      runBody nx body c = .ok { c with effects := c.effects ++ ownEffects body }) ∧
    ((c.handlers.length : Int) - c.index ≤ fuel + 1 →
      c.index + (nextsBehind c.handlers c.Request c.index : Int) + 1 ≤ maxInt →
      ∃ c1, Context.Next (fuel + 1) c = .ok c1 ∧ c1.handlers = c.handlers ∧
        c.index + 1 ≤ c1.index ∧
        ∃ new : List Int, c1.invoked = c.invoked ++ new ∧
          c1.index = c.index + 1 + (callsIn c.handlers c.Request new : Int)) := by
  refine ⟨?_, ?_, ?_, ?_⟩
  · intro hlt
    have h0 : (0 : Int) ≤ c.index + 1 := by omega
    have hn : (c.index + 1).toNat < c.handlers.length := by omega
    have hget : sliceIndex c.handlers (c.index + 1) =
        some (c.handlers.get ⟨(c.index + 1).toNat, hn⟩) := by
      simp only [sliceIndex, h0, if_true]
      exact List.get?_eq_get hn
    exact ⟨_, hget, Next_in fuel c _ hmax hlt hget⟩
  · intro hge
    exact Next_past fuel c hmax hge
  · intro nx body hfree
    exact runBody_free_only nx body c hfree
  · intro hfuel hsize
    obtain ⟨c1, hrun, hadv⟩ := Next_advance (fuel + 1) c hidx (by omega)
      (by push_cast; omega) hsize
    have hle := Advance.index_le 1 c c1 hadv
    obtain ⟨hh, _, _, new, hv, _, _, hi⟩ := hadv
    exact ⟨c1, hrun, hh, by omega, new, hv, by omega⟩

/-- Witness for C15: the first of two handlers continues twice. -/
theorem next_single_step_witness :
    ∃ c1, Context.Next (2 + 1) { freshContext ⟨"GET", "/", []⟩ with
        handlers := [fun _ => [.next, .next], fun _ => [.effect (.print "b")]] } = .ok c1 ∧
      c1.handlers = [fun _ => [.next, .next], fun _ => [.effect (.print "b")]] ∧
      (-1 : Int) + 1 ≤ c1.index ∧
      ∃ new : List Int, c1.invoked = [] ++ new ∧
        c1.index = -1 + 1 + (callsIn [fun _ => [.next, .next], fun _ => [.effect (.print "b")]]
          ⟨"GET", "/", []⟩ new : Int) :=
  (next_single_step { freshContext ⟨"GET", "/", []⟩ with
      handlers := [fun _ => [.next, .next], fun _ => [.effect (.print "b")]] } 2
    (by decide) (by decide)).2.2.2 (by decide) (by decide)

end Cursor

namespace Shared

/-! ## The middleware slice in memory -/

theorem take_set_succ {α : Type} (arr : List α) :
    ∀ (n : Nat) (x : α), n < arr.length → (arr.set n x).take (n + 1) = arr.take n ++ [x] := by
  induction arr with
  | nil => intro n x h; simp at h
  | cons a t ih =>
    intro n x h
    cases n with
    | zero => simp
    | succ k =>
      have hk : k < t.length := by simpa using h
      simp [ih k x hk]

theorem take_set_same {α : Type} (arr : List α) :
    ∀ (n : Nat) (x : α), (arr.set n x).take n = arr.take n := by
  induction arr with
  | nil => intro n x; simp
  | cons a t ih =>
    intro n x
    cases n with
    | zero => simp
    | succ k => simp [ih k x]

theorem take_writeSlot_succ (arr : List Cursor.HandlerFunc) (n : Nat) (x : Cursor.HandlerFunc)
    (hle : n ≤ arr.length) : (writeSlot arr n x).take (n + 1) = arr.take n ++ [x] := by
  unfold writeSlot
  by_cases h : n < arr.length
  · rw [if_pos h]
    exact take_set_succ arr n x h
  · have heq : n = arr.length := by omega
    rw [if_neg h, heq]
    simp

theorem take_writeSlot_same (arr : List Cursor.HandlerFunc) (n : Nat) (x : Cursor.HandlerFunc)
    (hle : n ≤ arr.length) : (writeSlot arr n x).take n = arr.take n := by
  unfold writeSlot
  by_cases h : n < arr.length
  · rw [if_pos h]
    exact take_set_same arr n x
  · have heq : n = arr.length := by omega
    rw [if_neg h, heq]
    simp

theorem length_writeSlot (arr : List Cursor.HandlerFunc) (n : Nat) (x : Cursor.HandlerFunc) :
    arr.length ≤ (writeSlot arr n x).length := by
  unfold writeSlot
  by_cases h : n < arr.length
  · rw [if_pos h]
    simp
  · rw [if_neg h]
    simp

theorem getD_set_self (heap : Heap) (a : Nat) (v : List Cursor.HandlerFunc)
    (h : a < heap.length) : (heap.set a v).getD a [] = v := by
  rw [List.getD_eq_getElem?_getD, List.getElem?_set_self h]
  rfl

/-- The slice `append` returns holds the elements of `s` followed by `x`. -/
theorem readSlice_goAppend (grow : Nat → Nat) (heap : Heap) (s : Slice)
    (x : Cursor.HandlerFunc) (harr : s.array < heap.length)
    (hlen : s.len ≤ (heap.getD s.array []).length) :
    readSlice (goAppend grow heap s x).1 (goAppend grow heap s x).2 =
      readSlice heap s ++ [x] := by
  unfold goAppend
  by_cases hcap : s.len < s.cap
  · simp only [if_pos hcap, readSlice]
    rw [getD_set_self heap s.array _ harr]
    exact take_writeSlot_succ _ _ _ hlen
  · simp only [if_neg hcap, readSlice]
    rw [List.getD_append_right _ _ _ _ (le_refl _)]
    simp only [Nat.sub_self, List.getD_cons_zero]
    apply List.take_of_length_le
    simp only [List.length_append, List.length_take, List.length_singleton]
    omega

/-- After `append(s, x)` the slice `s` itself still holds the same elements. -/
theorem readSlice_frame (grow : Nat → Nat) (heap : Heap) (s : Slice)
    (x : Cursor.HandlerFunc) (harr : s.array < heap.length)
    (hlen : s.len ≤ (heap.getD s.array []).length) :
    readSlice (goAppend grow heap s x).1 s = readSlice heap s := by
  unfold goAppend
  by_cases hcap : s.len < s.cap
  · simp only [if_pos hcap, readSlice]
    rw [getD_set_self heap s.array _ harr]
    exact take_writeSlot_same _ _ _ hlen
  · simp only [if_neg hcap, readSlice]
    rw [List.getD_append _ _ _ _ harr]

theorem goAppend_keeps (grow : Nat → Nat) (heap : Heap) (s : Slice)
    (x : Cursor.HandlerFunc) (harr : s.array < heap.length)
    (hlen : s.len ≤ (heap.getD s.array []).length) :
    s.array < (goAppend grow heap s x).1.length ∧
      s.len ≤ ((goAppend grow heap s x).1.getD s.array []).length := by
  unfold goAppend
  by_cases hcap : s.len < s.cap
  · simp only [if_pos hcap, List.length_set]
    refine ⟨harr, ?_⟩
    rw [getD_set_self heap s.array _ harr]
    exact le_trans hlen (length_writeSlot _ _ _)
  · simp only [if_neg hcap, List.length_append, List.length_singleton]
    refine ⟨by omega, ?_⟩
    rw [List.getD_append _ _ _ _ harr]
    exact hlen

/-! ## Engines in memory and the engines they stand for -/

theorem WF_NewEngine : NewEngine.WF := by
  refine ⟨by decide, by decide⟩

theorem WF_GET (e : Engine) (path : String) (handler : Cursor.HandlerFunc) (hwf : e.WF) :
    (e.GET path handler).WF := hwf

theorem WF_Use (grow : Nat → Nat) (e : Engine) (mw : Cursor.HandlerFunc) (hwf : e.WF) :
    (e.Use grow mw).WF := by
  obtain ⟨harr, hlen⟩ := hwf
  unfold Engine.WF Engine.Use goAppend
  by_cases hcap : e.middlewares.len < e.middlewares.cap
  · simp only [if_pos hcap, List.length_set]
    refine ⟨harr, ?_⟩
    rw [getD_set_self e.heap _ _ harr]
    unfold writeSlot
    by_cases h : e.middlewares.len < (e.heap.getD e.middlewares.array []).length
    · rw [if_pos h]
      simp only [List.length_set]
      omega
    · rw [if_neg h]
      simp only [List.length_append, List.length_singleton]
      omega
  · simp only [if_neg hcap, List.length_append, List.length_singleton]
    refine ⟨by omega, ?_⟩
    rw [List.getD_append_right _ _ _ _ (le_refl _)]
    simp only [Nat.sub_self, List.getD_cons_zero, List.length_append, List.length_singleton,
      readSlice, List.length_take]
    omega

/-- `Use` on the memory state is `Use` on the engine it stands for. -/
theorem abs_Use (grow : Nat → Nat) (e : Engine) (mw : Cursor.HandlerFunc) (hwf : e.WF) :
    (e.Use grow mw).abs = e.abs.Use mw := by
  simp only [Engine.abs, Engine.Use, Cursor.Engine.Use]
  rw [readSlice_goAppend grow e.heap e.middlewares mw hwf.1 hwf.2]

theorem abs_GET (e : Engine) (path : String) (handler : Cursor.HandlerFunc) :
    (e.GET path handler).abs = e.abs.GET path handler := rfl

theorem prepare_none (grow : Nat → Nat) (e : Engine) (r : Request)
    (hroute : mapGet e.routes (r.Method ++ "-" ++ r.Path) = none) :
    e.prepare grow r = (e, none) := by
  simp only [Engine.prepare, hroute]

theorem prepare_some (grow : Nat → Nat) (e : Engine) (r : Request) (h : Cursor.HandlerFunc)
    (hroute : mapGet e.routes (r.Method ++ "-" ++ r.Path) = some h) :
    e.prepare grow r =
      ({ e with heap := (goAppend grow e.heap e.middlewares h).1 },
        some (goAppend grow e.heap e.middlewares h).2) := by
  simp only [Engine.prepare, hroute]

/-- One request served from start to end: the outcome is that of the cursor
strategy on the engine the memory stands for, and the memory afterwards stands
for the same engine. -/
theorem ServeHTTP_refines (fuel : Nat) (grow : Nat → Nat) (e : Engine) (r : Request)
    (hwf : e.WF) :
    (e.ServeHTTP fuel grow r).2 = Cursor.Engine.ServeHTTP fuel e.abs r ∧
      (e.ServeHTTP fuel grow r).1.abs = e.abs ∧
      (e.ServeHTTP fuel grow r).1.WF ∧
      (e.ServeHTTP fuel grow r).1.middlewares = e.middlewares ∧
      (e.ServeHTTP fuel grow r).1.routes = e.routes := by
  obtain ⟨harr, hlen⟩ := hwf
  unfold Engine.ServeHTTP
  cases hroute : mapGet e.routes (r.Method ++ "-" ++ r.Path) with
  | none =>
    rw [prepare_none grow e r hroute]
    refine ⟨?_, rfl, ⟨harr, hlen⟩, rfl, rfl⟩
    simp [Engine.dispatch, Cursor.Engine.ServeHTTP, Engine.abs, hroute, Cursor.freshContext]
  | some h =>
    rw [prepare_some grow e r h hroute]
    refine ⟨?_, ?_, ?_, rfl, rfl⟩
    · simp only [Engine.dispatch, Cursor.Engine.ServeHTTP, Engine.abs, hroute]
      rw [readSlice_goAppend grow e.heap e.middlewares h harr hlen]
    · simp only [Engine.abs]
      rw [readSlice_frame grow e.heap e.middlewares h harr hlen]
    · exact goAppend_keeps grow e.heap e.middlewares h harr hlen

theorem serveAll_refines (fuel : Nat) (grow : Nat → Nat) (rs : List Request) :
    ∀ e : Engine, e.WF → (serveAll fuel grow e rs).WF ∧ (serveAll fuel grow e rs).abs = e.abs := by
  induction rs with
  | nil => intro e hwf; exact ⟨hwf, rfl⟩
  | cons r rest ih =>
    intro e hwf
    obtain ⟨_, habs, hwf1, _, _⟩ := ServeHTTP_refines fuel grow e r hwf
    obtain ⟨hwf2, habs2⟩ := ih _ hwf1
    exact ⟨hwf2, habs2.trans habs⟩

/-- Two appends to the same slice with spare capacity give the same slice of
the same backing array, and it holds the element of the second append. -/
theorem append_shares_array (grow : Nat → Nat) (heap : Heap) (s : Slice)
    (x y : Cursor.HandlerFunc) (hcap : s.len < s.cap) (harr : s.array < heap.length)
    (hlen : s.len ≤ (heap.getD s.array []).length) :
    (goAppend grow (goAppend grow heap s x).1 s y).2 = (goAppend grow heap s x).2 ∧
      (goAppend grow heap s x).2.array = s.array ∧
      readSlice (goAppend grow (goAppend grow heap s x).1 s y).1 (goAppend grow heap s x).2 =
        readSlice heap s ++ [y] := by
  have hkeep := goAppend_keeps grow heap s x harr hlen
  have h2 : (goAppend grow (goAppend grow heap s x).1 s y).2 = (goAppend grow heap s x).2 := by
    simp [goAppend, hcap]
  refine ⟨h2, by simp [goAppend, hcap], ?_⟩
  rw [← h2, readSlice_goAppend grow _ s y hkeep.1 hkeep.2,
    readSlice_frame grow heap s x harr hlen]

/-- C16. Serving does not change the engine: for every engine (its middleware
slice in memory) and every request, matched or not, `ServeHTTP` leaves the
elements of the middleware slice, the slice value and the route table as they
were, its outcome is that of a dispatch from a fresh context on that engine,
and so the outcome of serving the request after any sequence of earlier
requests equals the outcome of serving it first. -/
theorem serving_keeps_engine (fuel : Nat) (grow : Nat → Nat) (e : Engine) (r : Request)
    (hwf : e.WF) :
    readSlice (e.ServeHTTP fuel grow r).1.heap (e.ServeHTTP fuel grow r).1.middlewares =
        readSlice e.heap e.middlewares ∧
      (e.ServeHTTP fuel grow r).1.middlewares = e.middlewares ∧
      (e.ServeHTTP fuel grow r).1.routes = e.routes ∧
      (e.ServeHTTP fuel grow r).2 = Cursor.Engine.ServeHTTP fuel e.abs r ∧
      ∀ rs : List Request,
        ((serveAll fuel grow e rs).ServeHTTP fuel grow r).2 = (e.ServeHTTP fuel grow r).2 := by
  obtain ⟨hout, habs, _, hmw, hroutes⟩ := ServeHTTP_refines fuel grow e r hwf
  refine ⟨?_, hmw, hroutes, hout, ?_⟩
  · exact congrArg Cursor.Engine.middlewares habs
  · intro rs
    obtain ⟨hwf2, habs2⟩ := serveAll_refines fuel grow rs e hwf
    rw [(ServeHTTP_refines fuel grow _ r hwf2).1, habs2, hout]

/-- Witness for C16: a request served after two others, on an engine with
three middleware. -/
theorem serving_keeps_engine_witness :
    ((serveAll 5 growCap raceEngine [⟨"GET", "/b", []⟩, ⟨"GET", "/none", []⟩]).ServeHTTP 5
        growCap ⟨"GET", "/a", []⟩).2 =
      (raceEngine.ServeHTTP 5 growCap ⟨"GET", "/a", []⟩).2 :=
  (serving_keeps_engine 5 growCap raceEngine ⟨"GET", "/a", []⟩
    ⟨by decide, by decide⟩).2.2.2.2 [⟨"GET", "/b", []⟩, ⟨"GET", "/none", []⟩]

/-- C14, the failing input. On an engine with three middleware the slice
`e.middlewares` has length 3 and capacity 4. Two requests, GET /a and GET /b,
are served at the same time: each builds its handler sequence with
`append(e.middlewares, routeHandler)` before either dispatches. Both sequences
are the same slice of the backing array of `e.middlewares`, and the request for
/a then runs the route handler of /b. Served alone it runs its own. -/
theorem handlers_shared_between_requests :
    raceEngine.middlewares = { array := 3, len := 3, cap := 4 } ∧
      (raceEngine.prepare growCap ⟨"GET", "/a", []⟩).2 =
        some { array := 3, len := 4, cap := 4 } ∧
      ((raceEngine.prepare growCap ⟨"GET", "/a", []⟩).1.prepare growCap ⟨"GET", "/b", []⟩).2 =
        some { array := 3, len := 4, cap := 4 } ∧
      (((raceEngine.prepare growCap ⟨"GET", "/a", []⟩).1.prepare growCap
          ⟨"GET", "/b", []⟩).1.dispatch 5 ⟨"GET", "/a", []⟩
          (raceEngine.prepare growCap ⟨"GET", "/a", []⟩).2).map Cursor.Context.effects =
        .ok [.print "m1", .print "m2", .print "m3", .writeHeader 200, .write "b"] ∧
      (raceEngine.ServeHTTP 5 growCap ⟨"GET", "/a", []⟩).2.map Cursor.Context.effects =
        .ok [.print "m1", .print "m2", .print "m3", .writeHeader 200, .write "a"] := by
  refine ⟨by decide, by decide, by decide, rfl, rfl⟩

end Shared
